import Mathlib

set_option maxRecDepth 16384

/-!
Shallow embedding of the `avr-int24` crate: a 24-bit signed integer type with
saturating arithmetic, represented as three little-endian 8-bit limbs.

The embedding covers
* the raw representation and the signed/unsigned readings of the limbs,
* the portable const-evaluable operations of `Int24` (src/avr-int24/src/lib.rs),
* the AVR low-level routines (src/avr-int24/src/asm_avr.rs): the Booth-style
  sequential multiplier `asm_mulsat24`, the restoring divider `asm_divsat24`
  (plain 24-bit form and the shift-left-8 32-bit form), `asm_negsat24`,
  `asm_shl24`, `asm_shr24` and the flag-based comparison `asm_ge24`.

Machine integers are embedded as `Nat`/`Int` with explicit reductions modulo
powers of two; fallible Rust code (operations that can panic) returns `Option`.

The repository file `src/raw.rs` (conversions, carry-chain add/sub, limb-wise
equality, absolute value, backend dispatch) is not present under `src/`; the
definitions taken from it are modelled from the specification and are marked
`Modelled from the spec:` in their doc comments.
-/

/-- Raw 24-bit value: three unsigned 8-bit limbs, little endian
(`Int24Raw` in src/avr-int24/src/lib.rs; `u8` limbs embedded as `Nat`). -/
structure Int24Raw where
  b0 : Nat
  b1 : Nat
  b2 : Nat
deriving DecidableEq, Repr

/-- Well-formedness of the embedding: each limb fits in 8 bits
(automatic for `u8` in the source). -/
def Int24Raw.Wf (r : Int24Raw) : Prop := r.b0 < 256 ∧ r.b1 < 256 ∧ r.b2 < 256

instance (r : Int24Raw) : Decidable r.Wf := by
  unfold Int24Raw.Wf; infer_instance

/-- Unsigned value of the three little-endian limbs. -/
def u24 (r : Int24Raw) : Nat := r.b0 + 256 * r.b1 + 65536 * r.b2

/-- Limbs of a 24-bit unsigned pattern. -/
def ofU24 (u : Nat) : Int24Raw := ⟨u % 256, u / 256 % 256, u / 65536 % 256⟩

/-- Two's-complement signed reading of a `w`-bit pattern. -/
def toSigned (w u : Nat) : Int := if 2 ^ (w - 1) ≤ u then (u : Int) - 2 ^ w else u

/-- Signed 24-bit value of a raw triple; bit 7 of `b2` is the sign bit
(the two's-complement interpretation fixed by the data model). -/
def s24 (r : Int24Raw) : Int := if 128 ≤ r.b2 then (u24 r : Int) - 16777216 else u24 r

/-- Raw pattern of the representable maximum 8388607 = 0x7FFFFF. -/
def maxRaw : Int24Raw := ofU24 8388607

/-- Raw pattern of the representable minimum -8388608 = 0x800000 raw. -/
def minRaw : Int24Raw := ofU24 8388608

/-- Clamp an integer to the representable 24-bit range `[-8388608, 8388607]`. -/
def clamp24 (v : Int) : Int :=
  if v < -8388608 then -8388608 else if 8388607 < v then 8388607 else v

/-- Modelled from the spec: missing file src/raw.rs, `conv::i32_to_i24raw_sat` —
saturate a 32-bit signed value to `[-8388608, 8388607]`, then take the
two's-complement 3-limb pattern (spec section 4.1, `from_i32`). -/
def i32_to_i24raw_sat (v : Int) : Int24Raw :=
  ofU24 (clamp24 v % 16777216).toNat

/-- Modelled from the spec: missing file src/raw.rs, `conv::i24raw_to_i32` —
exact sign extension, always lossless (spec section 4.1, `to_i32`). -/
def i24raw_to_i32 (r : Int24Raw) : Int := s24 r

/-- Rust `i32` arithmetic-overflow check: out-of-range results panic in debug
builds and are a hard error in `const` evaluation (embedded as `none`). -/
def i32chk (v : Int) : Option Int :=
  if -2147483648 ≤ v ∧ v < 2147483648 then some v else none

/-- Rust `i32` division `a / b`: truncates toward zero, panics (`none`) on a
zero divisor and on overflow. -/
def i32div (a b : Int) : Option Int := if b = 0 then none else i32chk (a.tdiv b)

/-- Rust `i32` wrapping reduction (release-mode two's-complement wraparound). -/
def wrap32 (v : Int) : Int := (v + 2147483648) % 4294967296 - 2147483648

/-- Int24::const_add (lib.rs line 148): `from_i32(self.to_i32() + other.to_i32())`.
The `i32` sum of two 24-bit values never overflows; the addition is embedded
checked nonetheless, mirroring Rust `+`. -/
def constAdd (a b : Int24Raw) : Option Int24Raw :=
  (i32chk (s24 a + s24 b)).map i32_to_i24raw_sat

/-- Int24::const_sub (lib.rs line 163): `from_i32(self.to_i32() - other.to_i32())`. -/
def constSub (a b : Int24Raw) : Option Int24Raw :=
  (i32chk (s24 a - s24 b)).map i32_to_i24raw_sat

/-- Int24::const_mul (lib.rs line 178): `from_i32(self.to_i32() * other.to_i32())`;
the `i32` product of two 24-bit values can overflow. -/
def constMul (a b : Int24Raw) : Option Int24Raw :=
  (i32chk (s24 a * s24 b)).map i32_to_i24raw_sat

/-- Int24::const_mul under release-mode wraparound instead of a debug panic. -/
def constMulRelease (a b : Int24Raw) : Int24Raw :=
  i32_to_i24raw_sat (wrap32 (s24 a * s24 b))

/-- Int24::const_div (lib.rs line 193): `from_i32(self.to_i32() / other.to_i32())`;
Rust `/` panics on a zero divisor. -/
def constDiv (a b : Int24Raw) : Option Int24Raw :=
  (i32div (s24 a) (s24 b)).map i32_to_i24raw_sat

/-- Int24::const_shl8div (lib.rs line 215):
`from_i32((self.to_i32() << 8) / other.to_i32())`. The `i32` left shift by 8
is exact here (|to_i32| ≤ 8388608, so the shifted value fits in `i32`);
the division panics on a zero divisor and on `i32::MIN / -1` overflow. -/
def constShl8div (a b : Int24Raw) : Option Int24Raw :=
  (i32div (s24 a * 256) (s24 b)).map i32_to_i24raw_sat

/-- Int24::const_neg (lib.rs line 230): `from_i32(-self.to_i32())`. -/
def constNeg (a : Int24Raw) : Option Int24Raw :=
  (i32chk (-(s24 a))).map i32_to_i24raw_sat

/-- Int24::const_abs (lib.rs line 245): `const_neg` when negative, else unchanged. -/
def constAbs (a : Int24Raw) : Option Int24Raw :=
  if s24 a < 0 then constNeg a else some a

/-- Int24::const_shl (lib.rs line 285): `from_i32(self.to_i32() << count)`.
A shift count of 32 or more is an arithmetic overflow (debug panic / const
error, embedded as `none`); the value bits shifted out wrap in `i32`. -/
def constShl (a : Int24Raw) (count : Nat) : Option Int24Raw :=
  if count < 32 then some (i32_to_i24raw_sat (wrap32 (s24 a * 2 ^ count))) else none

/-- Int24::const_shr (lib.rs line 314): `from_i32(self.to_i32() >> count)`;
the `i32` arithmetic right shift is floor division by `2 ^ count`, and a count
of 32 or more is again an arithmetic overflow. -/
def constShr (a : Int24Raw) (count : Nat) : Option Int24Raw :=
  if count < 32 then some (i32_to_i24raw_sat ((s24 a).fdiv (2 ^ count))) else none

/-- Int24::const_cmp (lib.rs lines 335-343). -/
def constCmp (a b : Int24Raw) : Ordering :=
  if s24 a = s24 b then .eq else if s24 b ≤ s24 a then .gt else .lt

/-- Modelled from the spec: missing file src/raw.rs, `add24` — three chained
8-bit add-with-carry steps (= addition modulo 2^24), then the two's-complement
overflow rule: overflow iff both operands share a sign and the result's sign
differs; positive overflow saturates to the maximum, negative to the minimum
(spec section 4.2, Addition / Subtraction). -/
def add24 (a b : Int24Raw) : Int24Raw :=
  let sum := (u24 a + u24 b) % 16777216
  let sa := u24 a / 8388608
  let sb := u24 b / 8388608
  if sa = sb ∧ sum / 8388608 ≠ sa then
    (if sa = 0 then maxRaw else minRaw)
  else ofU24 sum

/-- Modelled from the spec: missing file src/raw.rs, `sub24` — three chained
8-bit subtract-with-borrow steps (= subtraction modulo 2^24) with the overflow
rule of `add24`, treating the second operand's effective sign as inverted
(spec section 4.2). -/
def sub24 (a b : Int24Raw) : Int24Raw :=
  let d := (u24 a + (16777216 - u24 b)) % 16777216
  let sa := u24 a / 8388608
  let sb := 1 - u24 b / 8388608
  if sa = sb ∧ d / 8388608 ≠ sa then
    (if sa = 0 then maxRaw else minRaw)
  else ofU24 d

/-- Modelled from the spec: missing file src/raw.rs, `eq24` — limb-wise
equality of all three limbs (spec section 4.2, Comparison). -/
def eq24 (a b : Int24Raw) : Bool :=
  a.b0 = b.b0 ∧ a.b1 = b.b1 ∧ a.b2 = b.b2

/-- Two's-complement negation of a 24-bit pattern
(`com`/`neg`/`sbci` chain of asm_avr.rs, e.g. lines 335-339). -/
def negWrap24 (u : Nat) : Nat := (16777216 - u) % 16777216

/-- asm_negsat24 (asm_avr.rs lines 330-359): two's-complement negate; if the
sign bit was set before and is still set afterwards (`t = a2_old AND a2_new`,
bit 7), the input was the minimum and the result saturates to the maximum. -/
def asm_negsat24 (a : Int24Raw) : Int24Raw :=
  let u := u24 a
  let n := negWrap24 u
  if 8388608 ≤ u ∧ 8388608 ≤ n then maxRaw else ofU24 n

/-- Modelled from the spec: missing file src/raw.rs, `abs24` — saturating
negation for a negative value, identity otherwise (spec section 4.2). -/
def abs24 (a : Int24Raw) : Int24Raw :=
  if 128 ≤ a.b2 then asm_negsat24 a else a

/-- One `lsl`/`rol`/`rol` step of asm_shl24: left shift the 24-bit pattern by
one bit, discarding the carry out. -/
def shl1 (u : Nat) : Nat := 2 * u % 16777216

/-- Iterated 1-bit left shifts (the `dec`/`brne` loop of asm_shl24). -/
def shlLoop : Nat → Nat → Nat
  | u, 0 => u
  | u, c + 1 => shlLoop (shl1 u) c

/-- asm_shl24 (asm_avr.rs lines 363-384): left shift by `count` single-bit
steps; a zero count leaves the value unchanged. Truncates, never saturates. -/
def asm_shl24 (a : Int24Raw) (count : Nat) : Int24Raw := ofU24 (shlLoop (u24 a) count)

/-- One `asr`/`ror`/`ror` step of asm_shr24: arithmetic right shift of the
24-bit pattern by one bit (bit 23 is replicated). -/
def asr1 (u : Nat) : Nat := u / 2 + 8388608 * (u / 8388608)

/-- Iterated 1-bit arithmetic right shifts (the loop of asm_shr24). -/
def shrLoop : Nat → Nat → Nat
  | u, 0 => u
  | u, c + 1 => shrLoop (asr1 u) c

/-- asm_shr24 (asm_avr.rs lines 388-409): arithmetic right shift by `count`
single-bit steps. -/
def asm_shr24 (a : Int24Raw) (count : Nat) : Int24Raw := ofU24 (shrLoop (u24 a) count)

/-- asm_ge24 (asm_avr.rs lines 411-436): compare with `cp`/`cpc`/`cpc` and
test the S flag (sign xor overflow) of the final 8-bit subtract-with-borrow;
the result is true iff S is clear. Borrows of the two low limbs are chained;
N is bit 7 of the top result byte, V the signed 8-bit overflow of the top
subtract-with-borrow. -/
def asm_ge24 (a b : Int24Raw) : Bool :=
  let bor0 : Nat := if a.b0 < b.b0 then 1 else 0
  let bor1 : Nat := if a.b1 < b.b1 + bor0 then 1 else 0
  let t : Int := toSigned 8 a.b2 - toSigned 8 b.b2 - bor1
  let r2 : Nat := (a.b2 + 256 - (b.b2 + bor1)) % 256
  decide ((128 ≤ r2) ↔ (t < -128 ∨ 128 ≤ t))

/-- Int24::cmp (lib.rs lines 320-328): limb equality, then `ge24`, combined
into a three-way ordering. -/
def int24_cmp (a b : Int24Raw) : Ordering :=
  if eq24 a b then .eq else if asm_ge24 a b then .gt else .lt

/-- Loop state of the Booth-style multiplier asm_mulsat24: `p` is the 24-bit
upper product pattern (`p3:p4:p5`), `m` the 24-bit multiplier / lower product
pattern (`b0:b1:b2`), `c` the carry flag between iterations. -/
structure MState where
  p : Nat
  m : Nat
  c : Bool
deriving DecidableEq, Repr

/-- One iteration of the asm_mulsat24 loop (asm_avr.rs lines 47-66): add the
multiplicand into the upper product when the carry is set, subtract it when
bit 0 of the lower pattern is set, then arithmetically shift the combined
48-bit pattern right by one bit; the bit shifted out of `m` becomes the carry. -/
def mulStep (ua : Nat) (s : MState) : MState :=
  let p1 := if s.c then (s.p + ua) % 16777216 else s.p
  let p2 := if s.m % 2 = 1 then (p1 + (16777216 - ua)) % 16777216 else p1
  { p := asr1 p2
    m := s.m / 2 + 8388608 * (p2 % 2)
    c := s.m % 2 = 1 }

/-- The 24-iteration `dec`/`brne` loop of asm_mulsat24, by remaining count. -/
def mulLoop (ua : Nat) : Nat → MState → MState
  | 0, s => s
  | k + 1, s => mulLoop ua k (mulStep ua s)

/-- asm_mulsat24 (asm_avr.rs lines 9-129): zero fast path; immediate
saturation when the multiplicand is the minimum (negative multiplier gives the
positive maximum, positive multiplier the negative minimum); otherwise the
expected product sign goes to the T flag, the 24-step Booth loop runs, and the
48-bit product is checked against the 24-bit range using T. -/
def asm_mulsat24 (a b : Int24Raw) : Int24Raw :=
  if u24 a = 0 ∨ u24 b = 0 then ofU24 0
  else if u24 a = 8388608 then (if 128 ≤ b.b2 then maxRaw else minRaw)
  else if (128 ≤ a.b2) ↔ (128 ≤ b.b2) then
    if (mulLoop (u24 a) 24 ⟨0, u24 b, false⟩).m / 8388608 = 1 then maxRaw
    else if (mulLoop (u24 a) 24 ⟨0, u24 b, false⟩).p ≠ 0 then maxRaw
    else ofU24 (mulLoop (u24 a) 24 ⟨0, u24 b, false⟩).m
  else
    if (mulLoop (u24 a) 24 ⟨0, u24 b, false⟩).m / 8388608 = 0 then minRaw
    else if (mulLoop (u24 a) 24 ⟨0, u24 b, false⟩).p ≠ 16777215 then minRaw
    else ofU24 (mulLoop (u24 a) 24 ⟨0, u24 b, false⟩).m

/-- Loop state of the restoring divider asm_divsat24: `a` is the combined
dividend / quotient shift register (`w` bits), `rem` the partial remainder,
`c` the carry holding the quotient bit of the previous iteration. -/
structure DState where
  a : Nat
  rem : Nat
  c : Bool
deriving DecidableEq, Repr

/-- One full iteration of the asm_divsat24 restoring loop (asm_avr.rs lines
208-229 for `w = 24`, lines 246-271 for `w = 32`): rotate the previous
quotient bit into `a` (the bit falling out of `a` is the next dividend bit),
shift it into the remainder, then subtract the divisor and restore on borrow. -/
def divStep (w d : Nat) (s : DState) : DState :=
  let bit := s.a / 2 ^ (w - 1)
  let a1 := (2 * s.a + (if s.c then 1 else 0)) % 2 ^ w
  let rem1 := 2 * s.rem + bit
  if d ≤ rem1 then ⟨a1, rem1 - d, true⟩ else ⟨a1, rem1, false⟩

/-- The restoring-division loop, by remaining full iterations. -/
def divLoop (w d : Nat) : Nat → DState → DState
  | 0, s => s
  | k + 1, s => divLoop w d k (divStep w d s)

/-- Exit path of the divider loop: the final `rol` rotates the last quotient
bit into `a` before the loop counter check breaks out. -/
def divFinish (w : Nat) (s : DState) : Nat := (2 * s.a + (if s.c then 1 else 0)) % 2 ^ w

/-- Unsigned restoring division of `n` by `d` over `w` quotient bits, exactly
as iterated by asm_divsat24. -/
def udiv (w d n : Nat) : Nat := divFinish w (divLoop w d w ⟨n, 0, false⟩)

/-- Saturating absolute value of a 24-bit pattern as computed inline by
asm_divsat24 (asm_avr.rs lines 167-195): negate when the sign bit is set; if
the sign bit is still set afterwards the operand was the minimum and the
magnitude saturates to 8388607. -/
def absSat24 (u : Nat) : Nat :=
  if 8388608 ≤ u then
    let n := negWrap24 u
    if 8388608 ≤ n then 8388607 else n
  else u

/-- asm_divsat24 (asm_avr.rs lines 131-327): division-by-zero convention
(maximum for a non-negative dividend, minimum otherwise), `MIN / -1`
saturation, expected sign to the T flag, saturating absolute values, then the
24-bit restoring loop — or, when `shl8` is set, the dividend pre-shifted left
by one whole limb and the 32-bit restoring loop followed by top-byte
saturation — and finally two's-complement negation when T is set. -/
def asm_divsat24 (a b : Int24Raw) (shl8 : Bool) : Int24Raw :=
  let ua := u24 a
  let ub := u24 b
  if ub = 0 then (if 128 ≤ a.b2 then minRaw else maxRaw)
  else if ub = 16777215 ∧ ua = 8388608 then maxRaw
  else
    let t : Bool := (128 ≤ a.b2) ≠ (128 ≤ b.b2)
    let na := absSat24 ua
    let nb := absSat24 ub
    if shl8 then
      let q := udiv 32 nb (na * 256)
      let q1 := if q / 16777216 ≠ 0 then 8388607 else q % 16777216
      if t then ofU24 (negWrap24 q1) else ofU24 q1
    else
      let q := udiv 24 nb na
      if t then ofU24 (negWrap24 q) else ofU24 q

/-- Modelled from the spec: missing file src/raw.rs, `div24` — dispatch of
`Int24::div` to the low-level divider without the pre-shift. -/
def div24 (a b : Int24Raw) : Int24Raw := asm_divsat24 a b false

/-- Modelled from the spec: missing file src/raw.rs, `shl24_by8_div24` —
dispatch of `Int24::shl8div` to the low-level divider with the pre-shift. -/
def shl24_by8_div24 (a b : Int24Raw) : Int24Raw := asm_divsat24 a b true

/-- Reference computation of spec section 8 for addition: widen both operands
to 32-bit integers, perform the native (wrapping) 32-bit addition, saturate
back to 24 bits. -/
def ref32Add (a b : Int24Raw) : Int24Raw := i32_to_i24raw_sat (wrap32 (s24 a + s24 b))

/-- Reference computation of spec section 8 for subtraction. -/
def ref32Sub (a b : Int24Raw) : Int24Raw := i32_to_i24raw_sat (wrap32 (s24 a - s24 b))

/-- Reference computation of spec section 8 for multiplication: the native
32-bit product wraps (release) or panics (debug) when the mathematical
product of two 24-bit values exceeds the 32-bit range. -/
def ref32Mul (a b : Int24Raw) : Int24Raw := i32_to_i24raw_sat (wrap32 (s24 a * s24 b))

/-- Exact widened saturating reference: clamp the mathematical result to the
representable 24-bit range (no intermediate 32-bit wraparound). -/
def satRef (v : Int) : Int24Raw := i32_to_i24raw_sat v

/-- Saturated absolute value at the integer level: the magnitude of the
representable minimum saturates to the maximum, as the divider computes it. -/
def satAbsI (v : Int) : Int := if v = -8388608 then 8388607 else |v|

/-!  Basic facts about the raw representation. -/

theorem wf_ofU24 (u : Nat) : (ofU24 u).Wf :=
  ⟨Nat.mod_lt _ (by norm_num), Nat.mod_lt _ (by norm_num), Nat.mod_lt _ (by norm_num)⟩

theorem u24_lt {r : Int24Raw} (h : r.Wf) : u24 r < 16777216 := by
  obtain ⟨hb0, hb1, hb2⟩ := h
  unfold u24
  omega

theorem u24_ofU24 {u : Nat} (h : u < 16777216) : u24 (ofU24 u) = u := by
  show u % 256 + 256 * (u / 256 % 256) + 65536 * (u / 65536 % 256) = u
  omega

theorem raw_ext_fields {a b : Int24Raw} (h0 : a.b0 = b.b0) (h1 : a.b1 = b.b1)
    (h2 : a.b2 = b.b2) : a = b := by
  cases a
  cases b
  rw [Int24Raw.mk.injEq]
  exact ⟨h0, h1, h2⟩

theorem ofU24_u24 {r : Int24Raw} (h : r.Wf) : ofU24 (u24 r) = r := by
  obtain ⟨hb0, hb1, hb2⟩ := h
  refine raw_ext_fields ?_ ?_ ?_
  · show (r.b0 + 256 * r.b1 + 65536 * r.b2) % 256 = r.b0
    omega
  · show (r.b0 + 256 * r.b1 + 65536 * r.b2) / 256 % 256 = r.b1
    omega
  · show (r.b0 + 256 * r.b1 + 65536 * r.b2) / 65536 % 256 = r.b2
    omega

theorem raw_ext {a b : Int24Raw} (ha : a.Wf) (hb : b.Wf) (h : u24 a = u24 b) : a = b := by
  rw [← ofU24_u24 ha, ← ofU24_u24 hb, h]

theorem sign_iff {r : Int24Raw} (h : r.Wf) : 128 ≤ r.b2 ↔ 8388608 ≤ u24 r := by
  obtain ⟨hb0, hb1, hb2⟩ := h
  unfold u24
  omega

theorem s24_of_neg {r : Int24Raw} (h : r.Wf) (hs : 8388608 ≤ u24 r) :
    s24 r = (u24 r : Int) - 16777216 := by
  unfold s24
  rw [if_pos ((sign_iff h).mpr hs)]

theorem s24_of_pos {r : Int24Raw} (h : r.Wf) (hs : u24 r < 8388608) :
    s24 r = (u24 r : Int) := by
  unfold s24
  rw [if_neg (fun hc => absurd ((sign_iff h).mp hc) (by omega))]

theorem s24_range {r : Int24Raw} (h : r.Wf) : -8388608 ≤ s24 r ∧ s24 r < 8388608 := by
  have hlt := u24_lt h
  rcases le_or_lt 8388608 (u24 r) with hs | hs
  · rw [s24_of_neg h hs]; omega
  · rw [s24_of_pos h hs]; omega

theorem sign_iff_s24 {r : Int24Raw} (h : r.Wf) : 128 ≤ r.b2 ↔ s24 r < 0 := by
  have hlt := u24_lt h
  rw [sign_iff h]
  rcases le_or_lt 8388608 (u24 r) with hs | hs
  · rw [s24_of_neg h hs]; omega
  · rw [s24_of_pos h hs]; omega

theorem clamp24_range (v : Int) : -8388608 ≤ clamp24 v ∧ clamp24 v ≤ 8388607 := by
  unfold clamp24
  split_ifs <;> omega

theorem clamp24_of_range {v : Int} (h1 : -8388608 ≤ v) (h2 : v < 8388608) :
    clamp24 v = v := by
  unfold clamp24
  split_ifs <;> omega

theorem wf_i32sat (v : Int) : (i32_to_i24raw_sat v).Wf := wf_ofU24 _

theorem u24_i32sat (v : Int) :
    u24 (i32_to_i24raw_sat v) = (clamp24 v % 16777216).toNat := by
  have h1 : 0 ≤ clamp24 v % 16777216 := Int.emod_nonneg _ (by norm_num)
  have h2 : clamp24 v % 16777216 < 16777216 := Int.emod_lt_of_pos _ (by norm_num)
  exact u24_ofU24 (by omega)

theorem s24_i32sat (v : Int) : s24 (i32_to_i24raw_sat v) = clamp24 v := by
  have hr := clamp24_range v
  have hu := u24_i32sat v
  have h1 : 0 ≤ clamp24 v % 16777216 := Int.emod_nonneg _ (by norm_num)
  have h2 : clamp24 v % 16777216 < 16777216 := Int.emod_lt_of_pos _ (by norm_num)
  rcases le_or_lt 0 (clamp24 v) with h | h
  · rw [s24_of_pos (wf_i32sat v) (by omega)]
    omega
  · rw [s24_of_neg (wf_i32sat v) (by omega)]
    omega

theorem i32sat_s24 {r : Int24Raw} (h : r.Wf) : i32_to_i24raw_sat (s24 r) = r := by
  have hr := s24_range h
  have hlt := u24_lt h
  refine raw_ext (wf_i32sat _) h ?_
  rw [u24_i32sat, clamp24_of_range hr.1 hr.2]
  rcases le_or_lt 8388608 (u24 r) with hs | hs
  · rw [s24_of_neg h hs]; omega
  · rw [s24_of_pos h hs]; omega

/-! Easy claim theorems and counterexamples. -/

/-- C1: the claim that every const variant of the arithmetic core is total
fails on the code: `Int24::const_div` divides the widened `i32` values with
the Rust division operator, which panics on a zero divisor (lib.rs line 194).
Evaluating the embedded `const_div` at `const_div(0, 0)` yields the panic
marker `none`. -/
theorem const_div_zero_divisor_panics : constDiv (ofU24 0) (ofU24 0) = none := by decide

/-- C4: dividing any value by zero returns the representable maximum for a
non-negative dividend and the representable minimum for a negative dividend
(asm_divsat24, asm_avr.rs lines 137-144); no exception is ever raised. -/
theorem div24_by_zero (a : Int24Raw) (h : a.Wf) :
    div24 a (ofU24 0) = if 0 ≤ s24 a then maxRaw else minRaw := by
  have hsgn := sign_iff_s24 h
  show asm_divsat24 a (ofU24 0) false = _
  rw [asm_divsat24, show u24 (ofU24 0) = 0 from rfl, if_pos rfl]
  by_cases hc : 128 ≤ a.b2
  · rw [if_pos hc, if_neg (by have := hsgn.mp hc; omega)]
  · have hnn : ¬ s24 a < 0 := fun hlt => hc (hsgn.mpr hlt)
    rw [if_neg hc, if_pos (by omega)]

/-- Witness for `div24_by_zero` at the concrete negative dividend 0xFED4E0. -/
theorem div24_by_zero_witness : div24 (ofU24 16700000) (ofU24 0) = minRaw :=
  (div24_by_zero (ofU24 16700000) (by decide)).trans (by decide)

/-- C5: the saturation boundary identities: negating the minimum, the absolute
value of the minimum and `minimum / -1` all give the maximum, and the two
additions `8388606 + 2` and `-8388607 + -2` saturate to the two bounds. -/
theorem saturation_boundaries :
    asm_negsat24 minRaw = maxRaw ∧
    abs24 minRaw = maxRaw ∧
    div24 minRaw (i32_to_i24raw_sat (-1)) = maxRaw ∧
    add24 (i32_to_i24raw_sat 8388606) (i32_to_i24raw_sat 2) = maxRaw ∧
    add24 (i32_to_i24raw_sat (-8388607)) (i32_to_i24raw_sat (-2)) = minRaw := by
  decide

/-- C6 counterexample: the claim says `mul(-8388608, b)` saturates to the
maximum for a positive multiplier, but `mul(-8388608, 1)` is the minimum
(the exact product): the boundary's sign is the product's sign, which is
opposite to the multiplier's sign because the multiplicand is negative. -/
theorem mul_min_by_positive_not_max :
    ¬ (asm_mulsat24 minRaw (ofU24 1) = maxRaw) := by decide

/-- C6 amended: for a nonzero multiplier `b`, multiplying the representable
minimum by `b` returns the boundary of the product's sign — the minimum when
`b` is positive, the maximum when `b` is negative (asm_mulsat24, asm_avr.rs
lines 22-30). -/
theorem mul_min_boundary (b : Int24Raw) (hb : b.Wf) (hnz : u24 b ≠ 0) :
    asm_mulsat24 minRaw b = if s24 b < 0 then maxRaw else minRaw := by
  have hsgn := sign_iff_s24 hb
  rw [asm_mulsat24, show u24 minRaw = 8388608 from rfl,
    if_neg (fun hor => Or.elim hor (fun hh => by norm_num at hh) hnz), if_pos rfl]
  by_cases hc : 128 ≤ b.b2
  · rw [if_pos hc, if_pos (hsgn.mp hc)]
  · have hnn : ¬ s24 b < 0 := fun hlt => hc (hsgn.mpr hlt)
    rw [if_neg hc, if_neg hnn]

/-- Witness for `mul_min_boundary` at the multiplier -3. -/
theorem mul_min_boundary_witness :
    u24 (i32_to_i24raw_sat (-3)) ≠ 0 ∧
    asm_mulsat24 minRaw (i32_to_i24raw_sat (-3)) = maxRaw :=
  ⟨by decide, (mul_min_boundary (i32_to_i24raw_sat (-3)) (by decide) (by decide)).trans
    (by decide)⟩

/-- C2 counterexample: the portable path saturates the left shift through
`from_i32`, the low-level path truncates; at value 1 and count 23 the two
differ (8388607 against the raw pattern 0x800000 = -8388608). -/
theorem const_shl_differs_from_asm_shl :
    ¬ (constShl (ofU24 1) 23 = some (asm_shl24 (ofU24 1) 23)) := by decide

/-- C3 counterexample: the product 0x400000 * 0x400000 = 2^44 overflows the
32-bit intermediate of the claimed reference computation (wrapping to 0, which
then saturates to 0), while the low-level multiplier computes the exact
saturated product 8388607. -/
theorem mul_differs_from_ref32 :
    ¬ (asm_mulsat24 (ofU24 4194304) (ofU24 4194304) =
       ref32Mul (ofU24 4194304) (ofU24 4194304)) := by decide

/-- C8 counterexample: `shl8div(40000, 1)` has the true quotient 10240000,
which the claim says saturates to 8388607; the low-level divider only checks
the top byte of the 32-bit quotient, takes the low 24 bits 0x9C4000 unchanged
and returns the wrapped negative value -6537216. -/
theorem shl8div_differs_from_formula :
    ¬ (shl24_by8_div24 (i32_to_i24raw_sat 40000) (i32_to_i24raw_sat 1) =
       i32_to_i24raw_sat (Int.tdiv (40000 * 256) 1)) := by decide

/-! Shift lemmas and claim C10. -/

theorem shl1_lt (u : Nat) : shl1 u < 16777216 := Nat.mod_lt _ (by norm_num)

theorem shlLoop_eq {u : Nat} (h : u < 16777216) (c : Nat) :
    shlLoop u c = u * 2 ^ c % 16777216 := by
  induction c generalizing u with
  | zero => simpa using (Nat.mod_eq_of_lt h).symm
  | succ c ih =>
    show shlLoop (shl1 u) c = _
    rw [ih (shl1_lt u)]
    show 2 * u % 16777216 * 2 ^ c % 16777216 = u * 2 ^ (c + 1) % 16777216
    rw [Nat.mod_mul_mod]
    congr 1
    ring

theorem asr1_pos {u : Nat} (h : u < 8388608) : asr1 u = u / 2 := by
  show u / 2 + 8388608 * (u / 8388608) = u / 2
  omega

theorem asr1_neg {u : Nat} (h1 : 8388608 ≤ u) (h2 : u < 16777216) :
    asr1 u = u / 2 + 8388608 := by
  show u / 2 + 8388608 * (u / 8388608) = u / 2 + 8388608
  omega

theorem shrLoop_pos {u : Nat} (h : u < 8388608) (c : Nat) :
    shrLoop u c = u / 2 ^ c := by
  induction c generalizing u with
  | zero => norm_num [shrLoop]
  | succ c ih =>
    show shrLoop (asr1 u) c = _
    rw [asr1_pos h, ih (by omega), Nat.div_div_eq_div_mul]
    congr 1
    ring

theorem shrLoop_neg {u : Nat} (h1 : 8388608 ≤ u) (h2 : u < 16777216) (c : Nat) :
    shrLoop u c = (u + (2 ^ c - 1) * 16777216) / 2 ^ c := by
  induction c generalizing u with
  | zero => norm_num [shrLoop]
  | succ c ih =>
    show shrLoop (asr1 u) c = _
    rw [asr1_neg h1 h2, ih (by omega) (by omega)]
    have hk : 1 ≤ 2 ^ c := Nat.one_le_two_pow
    rw [pow_succ, mul_comm (2 ^ c) 2, ← Nat.div_div_eq_div_mul]
    congr 1
    omega

/-- C10: an arithmetic right shift by 24 or more bits returns 0 for a
non-negative value and the all-ones pattern -1 for a negative value
(asm_shr24 iterated to the fixpoint of sign replication). -/
theorem shr24_count_ge_24 (a : Int24Raw) (ha : a.Wf) (c : Nat) (hc : 24 ≤ c) :
    asm_shr24 a c = if 0 ≤ s24 a then ofU24 0 else ofU24 16777215 := by
  have h24 := u24_lt ha
  have h2c : 16777216 ≤ 2 ^ c :=
    le_trans (by norm_num) (Nat.pow_le_pow_right (by norm_num) hc)
  rcases le_or_lt 8388608 (u24 a) with hs | hs
  · rw [if_neg (by rw [s24_of_neg ha hs]; omega)]
    unfold asm_shr24
    rw [shrLoop_neg hs h24 c]
    congr 1
    exact Nat.div_eq_of_lt_le (by omega) (by omega)
  · rw [if_pos (by rw [s24_of_pos ha hs]; omega)]
    unfold asm_shr24
    rw [shrLoop_pos hs c]
    congr 1
    exact Nat.div_eq_of_lt (by omega)

/-- Witness for `shr24_count_ge_24`: the minimum shifted right by 30 bits is
the all-ones pattern -1. -/
theorem shr24_count_ge_24_witness : asm_shr24 minRaw 30 = ofU24 16777215 :=
  (shr24_count_ge_24 minRaw (by decide) 30 (by norm_num)).trans (by decide)

/-! Saturating conversion helpers and add/sub correctness. -/

theorem i32sat_max {v : Int} (h : 8388607 ≤ v) : i32_to_i24raw_sat v = maxRaw := by
  refine raw_ext (wf_i32sat v) (by decide) ?_
  rw [u24_i32sat]
  have hc : clamp24 v = 8388607 := by unfold clamp24; split_ifs <;> omega
  rw [hc]
  decide

theorem i32sat_min {v : Int} (h : v ≤ -8388608) : i32_to_i24raw_sat v = minRaw := by
  refine raw_ext (wf_i32sat v) (by decide) ?_
  rw [u24_i32sat]
  have hc : clamp24 v = -8388608 := by unfold clamp24; split_ifs <;> omega
  rw [hc]
  decide

theorem i32sat_exact {v : Int} (h1 : -8388608 ≤ v) (h2 : v < 8388608) :
    u24 (i32_to_i24raw_sat v) = (v % 16777216).toNat := by
  rw [u24_i32sat, clamp24_of_range h1 h2]

theorem s24_lin {r : Int24Raw} (h : r.Wf) :
    s24 r = (u24 r : Int) - 16777216 * (u24 r / 8388608 : Nat) := by
  have hu := u24_lt h
  rcases le_or_lt 8388608 (u24 r) with hs | hs
  · rw [s24_of_neg h hs]
    have : u24 r / 8388608 = 1 := by omega
    rw [this]
    push_cast
    ring
  · rw [s24_of_pos h hs]
    have : u24 r / 8388608 = 0 := by omega
    rw [this]
    push_cast
    ring

theorem wrap32_id {v : Int} (h1 : -2147483648 ≤ v) (h2 : v < 2147483648) :
    wrap32 v = v := by
  unfold wrap32
  omega

/-- Correctness of the modelled carry-chain adder: it computes the widened
exact sum saturated to the 24-bit range. -/
theorem add24_correct (a b : Int24Raw) (ha : a.Wf) (hb : b.Wf) :
    add24 a b = i32_to_i24raw_sat (s24 a + s24 b) := by
  have hua := u24_lt ha
  have hub := u24_lt hb
  have ea := s24_lin ha
  have eb := s24_lin hb
  have hsum : (u24 a + u24 b) % 16777216 < 16777216 := Nat.mod_lt _ (by norm_num)
  rw [add24]
  split_ifs with h1 h2
  · exact (i32sat_max (by omega)).symm
  · exact (i32sat_min (by omega)).symm
  · refine raw_ext (wf_ofU24 _) (wf_i32sat _) ?_
    rw [u24_ofU24 hsum, i32sat_exact (by omega) (by omega)]
    omega

/-- Correctness of the modelled borrow-chain subtractor. -/
theorem sub24_correct (a b : Int24Raw) (ha : a.Wf) (hb : b.Wf) :
    sub24 a b = i32_to_i24raw_sat (s24 a - s24 b) := by
  have hua := u24_lt ha
  have hub := u24_lt hb
  have ea := s24_lin ha
  have eb := s24_lin hb
  have hd : (u24 a + (16777216 - u24 b)) % 16777216 < 16777216 := Nat.mod_lt _ (by norm_num)
  rw [sub24]
  split_ifs with h1 h2
  · exact (i32sat_max (by omega)).symm
  · exact (i32sat_min (by omega)).symm
  · refine raw_ext (wf_ofU24 _) (wf_i32sat _) ?_
    rw [u24_ofU24 hd, i32sat_exact (by omega) (by omega)]
    omega

/-! Comparison: asm_ge24 agrees with the signed order, and claim C9. -/

theorem toSigned8_def (u : Nat) :
    toSigned 8 u = if 128 ≤ u then (u : Int) - 256 else u := by
  unfold toSigned
  norm_num

theorem ge24_iff (a b : Int24Raw) (ha : a.Wf) (hb : b.Wf) :
    asm_ge24 a b = true ↔ s24 b ≤ s24 a := by
  obtain ⟨ha0, ha1, ha2⟩ := ha
  obtain ⟨hb0, hb1, hb2⟩ := hb
  have hua : u24 a = a.b0 + 256 * a.b1 + 65536 * a.b2 := rfl
  have hub : u24 b = b.b0 + 256 * b.b1 + 65536 * b.b2 := rfl
  have ea : s24 a = (u24 a : Int) - 16777216 * (u24 a / 8388608 : Nat) :=
    s24_lin ⟨ha0, ha1, ha2⟩
  have eb : s24 b = (u24 b : Int) - 16777216 * (u24 b / 8388608 : Nat) :=
    s24_lin ⟨hb0, hb1, hb2⟩
  simp only [asm_ge24, toSigned8_def, decide_eq_true_eq]
  split_ifs <;> omega

theorem eq24_iff (a b : Int24Raw) (ha : a.Wf) (hb : b.Wf) :
    eq24 a b = true ↔ s24 a = s24 b := by
  obtain ⟨ha0, ha1, ha2⟩ := ha
  obtain ⟨hb0, hb1, hb2⟩ := hb
  have hua : u24 a = a.b0 + 256 * a.b1 + 65536 * a.b2 := rfl
  have hub : u24 b = b.b0 + 256 * b.b1 + 65536 * b.b2 := rfl
  have ea : s24 a = (u24 a : Int) - 16777216 * (u24 a / 8388608 : Nat) :=
    s24_lin ⟨ha0, ha1, ha2⟩
  have eb : s24 b = (u24 b : Int) - 16777216 * (u24 b / 8388608 : Nat) :=
    s24_lin ⟨hb0, hb1, hb2⟩
  simp only [eq24, decide_eq_true_eq]
  omega

/-- C9: the three-way comparison assembled from limb equality and the S-flag
primitive is exactly the comparison of the sign-extended 32-bit values, hence
a strict total order consistent with `to_i32` ordering. -/
theorem cmp_consistent (a b : Int24Raw) (ha : a.Wf) (hb : b.Wf) :
    int24_cmp a b = compare (s24 a) (s24 b) := by
  have he := eq24_iff a b ha hb
  have hg := ge24_iff a b ha hb
  rw [int24_cmp]
  rcases lt_trichotomy (s24 a) (s24 b) with h | h | h
  · have hne : ¬ (eq24 a b = true) := fun hh => absurd (he.mp hh) (by omega)
    rw [if_neg hne, if_neg (fun hh => absurd (hg.mp hh) (by omega))]
    exact (compare_lt_iff_lt.mpr h).symm
  · rw [if_pos (he.mpr h)]
    exact (compare_eq_iff_eq.mpr h).symm
  · have hne : ¬ (eq24 a b = true) := fun hh => absurd (he.mp hh) (by omega)
    rw [if_neg hne, if_pos (hg.mpr (le_of_lt h))]
    exact (compare_gt_iff_gt.mpr h).symm

/-- Witness for `cmp_consistent` on 3 against 5. -/
theorem cmp_consistent_witness :
    int24_cmp (ofU24 3) (ofU24 5) = Ordering.lt ∧
    compare (s24 (ofU24 3)) (s24 (ofU24 5)) = Ordering.lt :=
  ⟨(cmp_consistent (ofU24 3) (ofU24 5) (by decide) (by decide)).trans (by decide),
   by decide⟩

/-! Booth multiplier loop invariant. -/

theorem toSigned24_def (u : Nat) :
    toSigned 24 u = if 8388608 ≤ u then (u : Int) - 16777216 else u := by
  unfold toSigned
  norm_num

theorem toSigned24_range {u : Nat} (h : u < 16777216) :
    -8388608 ≤ toSigned 24 u ∧ toSigned 24 u < 8388608 := by
  rw [toSigned24_def]
  split_ifs <;> omega

theorem mulLoop_succ (ua k : Nat) (s : MState) :
    mulLoop ua (k + 1) s = mulStep ua (mulLoop ua k s) := by
  induction k generalizing s with
  | zero => rfl
  | succ k ih =>
    show mulLoop ua (k + 1) (mulStep ua s) = _
    rw [ih (mulStep ua s)]
    rfl

theorem asr1_lt {u : Nat} (h : u < 16777216) : asr1 u < 16777216 := by
  unfold asr1
  omega

theorem intMulBound (b1 b2 E A B : Int) (hA1 : -b1 ≤ A) (hA2 : A ≤ b1)
    (hB1 : -b2 ≤ B) (hB2 : B ≤ b2) (hE : 0 ≤ E) :
    -(b1 * b2 * E) ≤ A * B * E ∧ A * B * E ≤ b1 * b2 * E := by
  have hb1 : 0 ≤ b1 := by linarith
  have hb2 : 0 ≤ b2 := by linarith
  have hAB1 : -(b1 * b2) ≤ A * B := by nlinarith
  have hAB2 : A * B ≤ b1 * b2 := by nlinarith
  constructor
  · nlinarith
  · nlinarith

theorem wrapAdd24 {p u : Nat} (hp : p < 16777216) (hu : u < 16777216) {A : Int}
    (hcong : (u : Int) % 16777216 = A % 16777216)
    (h1 : -8388608 ≤ toSigned 24 p + A) (h2 : toSigned 24 p + A < 8388608) :
    toSigned 24 ((p + u) % 16777216) = toSigned 24 p + A := by
  simp only [toSigned24_def]
  simp only [toSigned24_def] at h1 h2
  split_ifs at * <;> omega

theorem asrCombine (p m : Nat) (hp : p < 16777216) (hm : m < 16777216) :
    2 * (toSigned 24 (asr1 p) * 16777216 + ((m / 2 + 8388608 * (p % 2) : Nat) : Int))
        + ((m % 2 : Nat) : Int)
      = toSigned 24 p * 16777216 + m := by
  simp only [toSigned24_def, asr1]
  split_ifs <;> push_cast <;> omega

theorem mulLoop_inv (ua Bu : Nat) (A : Int) (hua : ua < 16777216) (hua0 : 0 < ua)
    (hBu : Bu < 16777216)
    (hA1 : -8388607 ≤ A) (hA2 : A ≤ 8388607)
    (hcong : (ua : Int) % 16777216 = A % 16777216) :
    ∀ k, k ≤ 24 →
      (mulLoop ua k ⟨0, Bu, false⟩).p < 16777216 ∧
      (mulLoop ua k ⟨0, Bu, false⟩).m < 16777216 ∧
      ((mulLoop ua k ⟨0, Bu, false⟩).c = true ↔ (¬ k = 0 ∧ Bu / 2 ^ (k - 1) % 2 = 1)) ∧
      toSigned 24 (mulLoop ua k ⟨0, Bu, false⟩).p * 16777216 + ((mulLoop ua k ⟨0, Bu, false⟩).m : Int)
        = A * (((Bu % 2 ^ k : Nat) : Int) - (if ¬ k = 0 ∧ Bu / 2 ^ (k - 1) % 2 = 1 then (2:Int) ^ k else 0)) * 2 ^ (24 - k)
          + ((Bu / 2 ^ k : Nat) : Int) := by
  intro k
  induction k with
  | zero =>
    intro _
    refine ⟨by show (0:Nat) < 16777216; norm_num, hBu, by simp [mulLoop], ?_⟩
    show toSigned 24 0 * 16777216 + (Bu : Int) = _
    simp only [Nat.mod_one, pow_zero, Nat.div_one, not_true_eq_false, false_and, if_neg]
    rw [toSigned24_def]
    norm_num
  | succ k ih =>
    intro hk1
    have hk24 : k < 24 := by omega
    have IH := ih (by omega)
    rw [mulLoop_succ]
    obtain ⟨hp, hm, hc, heq⟩ := IH
    -- power bookkeeping
    have hKposN : 0 < 2 ^ k := Nat.two_pow_pos k
    have hKE : (2:Int) ^ k * 2 ^ (23 - k) = 8388608 := by
      rw [← pow_add, show k + (23 - k) = 23 by omega]
      norm_num
    have hKE24 : (2:Int) ^ k * 2 ^ (24 - k) = 16777216 := by
      rw [← pow_add, show k + (24 - k) = 24 by omega]
      norm_num
    have hEsplit : (2:Int) ^ (24 - k) = 2 * 2 ^ (23 - k) := by
      rw [show 24 - k = (23 - k) + 1 by omega, pow_succ]
      ring
    have hE1 : (1:Int) ≤ 2 ^ (23 - k) := by
      have := pow_pos (show (0:Int) < 2 by norm_num) (23 - k)
      omega
    have hE2 : (2:Int) ^ (23 - k) ≤ 8388608 := by
      calc (2:Int) ^ (23 - k) ≤ 2 ^ 23 := pow_le_pow_right₀ (by norm_num) (by omega)
        _ = 8388608 := by norm_num
    have hK1 : (1:Int) ≤ 2 ^ k := by
      have := pow_pos (show (0:Int) < 2 by norm_num) k
      omega
    -- bounds on the consumed / remaining parts of Bu
    have hγlt : Bu % 2 ^ k < 2 ^ k := Nat.mod_lt _ hKposN
    have hγI : ((Bu % 2 ^ k : Nat) : Int) ≤ 2 ^ k - 1 := by
      have h1 : ((Bu % 2 ^ k : Nat) : Int) < ((2 ^ k : Nat) : Int) := Int.ofNat_lt.mpr hγlt
      have h2 : ((2 ^ k : Nat) : Int) = (2:Int) ^ k := by push_cast; ring
      omega
    have hγ0 : (0:Int) ≤ ((Bu % 2 ^ k : Nat) : Int) := Int.ofNat_nonneg _
    have hDltN : Bu / 2 ^ k < 2 ^ (24 - k) := by
      apply Nat.div_lt_of_lt_mul
      calc Bu < 16777216 := hBu
        _ = 2 ^ 24 := by norm_num
        _ = 2 ^ k * 2 ^ (24 - k) := by rw [← pow_add]; congr 1; omega
    have hDI : ((Bu / 2 ^ k : Nat) : Int) < 2 * 2 ^ (23 - k) := by
      have h1 : ((Bu / 2 ^ k : Nat) : Int) < ((2 ^ (24 - k) : Nat) : Int) := Int.ofNat_lt.mpr hDltN
      have h2 : ((2 ^ (24 - k) : Nat) : Int) = (2:Int) ^ (24 - k) := by push_cast; ring
      omega
    have hD0 : (0:Int) ≤ ((Bu / 2 ^ k : Nat) : Int) := Int.ofNat_nonneg _
    have hpr := toSigned24_range hp
    -- canonical next-step data
    have hmodsucc : Bu % 2 ^ (k + 1) = Bu % 2 ^ k + 2 ^ k * (Bu / 2 ^ k % 2) :=
      Nat.mod_pow_succ
    have hdivsucc : Bu / 2 ^ (k + 1) = Bu / 2 ^ k / 2 := by
      rw [pow_succ, ← Nat.div_div_eq_div_mul]
    have h24s : 24 - (k + 1) = 23 - k := by omega
    -- name and destructure the current state
    set st := mulLoop ua k ⟨0, Bu, false⟩ with hstdef
    clear_value st
    obtain ⟨p, m, c⟩ := st
    simp only at hp hm hc heq hpr ⊢
    have hmI : (m : Int) < 16777216 := by exact_mod_cast hm
    by_cases hcc : c = true
    · -- carry set: the multiplicand is added into the upper product
      have hcond : ¬ k = 0 ∧ Bu / 2 ^ (k - 1) % 2 = 1 := hc.mp hcc
      rw [if_pos hcond] at heq
      -- parity of the low pattern
      have heq2 : toSigned 24 p * 16777216 + (m : Int)
          = 2 * (A * (((Bu % 2 ^ k : Nat) : Int) - 2 ^ k) * 2 ^ (23 - k))
            + ((Bu / 2 ^ k : Nat) : Int) := by
        linear_combination heq + A * (((Bu % 2 ^ k : Nat) : Int) - 2 ^ k) * hEsplit
      have hpar : m % 2 = Bu / 2 ^ k % 2 := by omega
      -- the add (p + ua) stays in range
      have hXb := intMulBound 8388607 (2 ^ k - 1) (2 ^ (23 - k)) A
        ((Bu % 2 ^ k : Nat) : Int) hA1 hA2 (by omega) hγI (by positivity)
      have hlin : (8388607:Int) * (2 ^ k - 1) * 2 ^ (23 - k)
          = 8388607 * (8388608 - 2 ^ (23 - k)) := by
        rw [mul_assoc, sub_mul, one_mul, hKE]
      rw [hlin] at hXb
      have hv1eq : (toSigned 24 p + A) * 16777216 + (m : Int)
          = 2 * (A * ((Bu % 2 ^ k : Nat) : Int) * 2 ^ (23 - k))
            + ((Bu / 2 ^ k : Nat) : Int) := by
        linear_combination heq + A * ((Bu % 2 ^ k : Nat) : Int) * hEsplit - A * hKE24
      have hr1a : -8388608 ≤ toSigned 24 p + A := by omega
      have hr1b : toSigned 24 p + A < 8388608 := by omega
      have hwrap := wrapAdd24 hp hua hcong hr1a hr1b
      by_cases hbb : m % 2 = 1
      · -- carry set, multiplier bit set: add then subtract, net change zero
        have hstep : mulStep ua ⟨p, m, c⟩ =
            ⟨asr1 (((p + ua) % 16777216 + (16777216 - ua)) % 16777216),
             m / 2 + 8388608 * (((p + ua) % 16777216 + (16777216 - ua)) % 16777216 % 2),
             true⟩ := by
          simp [mulStep, hcc, hbb]
        rw [hstep]
        have hcong2 : ((16777216 - ua : Nat) : Int) % 16777216 = (-A) % 16777216 := by
          omega
        have hr2a : -8388608 ≤ toSigned 24 ((p + ua) % 16777216) + -A := by
          rw [hwrap]; omega
        have hr2b : toSigned 24 ((p + ua) % 16777216) + -A < 8388608 := by
          rw [hwrap]; omega
        have hwrap2 := wrapAdd24 (Nat.mod_lt _ (by norm_num : (0:Nat) < 16777216))
          (show 16777216 - ua < 16777216 by omega) hcong2 hr2a hr2b
        have hT2 : toSigned 24 (((p + ua) % 16777216 + (16777216 - ua)) % 16777216)
            = toSigned 24 p := by
          rw [hwrap2, hwrap]; ring
        have hEQ2 : toSigned 24 (((p + ua) % 16777216 + (16777216 - ua)) % 16777216) * 16777216
            + (m : Int)
            = 2 * (A * (((Bu % 2 ^ k : Nat) : Int) - 2 ^ k) * 2 ^ (23 - k))
              + ((Bu / 2 ^ k : Nat) : Int) := by
          rw [hT2]; exact heq2
        refine ⟨asr1_lt (Nat.mod_lt _ (by norm_num)), by simp only; omega, ?_, ?_⟩
        · simp only [Nat.add_sub_cancel, eq_self_iff_true, true_iff]
          omega
        · simp only [Nat.add_sub_cancel, h24s]
          rw [if_pos (show ¬ k + 1 = 0 ∧ Bu / 2 ^ k % 2 = 1 by omega)]
          rw [hdivsucc]
          have hbit : Bu / 2 ^ k % 2 = 1 := by omega
          rw [hbit, mul_one] at hmodsucc
          rw [hmodsucc]
          have hcoef : A * (((Bu % 2 ^ k + 2 ^ k : Nat) : Int) - 2 ^ (k + 1)) * 2 ^ (23 - k)
              = A * (((Bu % 2 ^ k : Nat) : Int) - 2 ^ k) * 2 ^ (23 - k) := by
            push_cast
            ring
          rw [hcoef]
          have hcomb := asrCombine (((p + ua) % 16777216 + (16777216 - ua)) % 16777216)
            m (Nat.mod_lt _ (by norm_num)) hm
          omega
      · -- carry set, multiplier bit clear: only the add happens
        have hstep : mulStep ua ⟨p, m, c⟩ =
            ⟨asr1 ((p + ua) % 16777216),
             m / 2 + 8388608 * ((p + ua) % 16777216 % 2),
             false⟩ := by
          simp [mulStep, hcc, hbb]
        rw [hstep]
        have hEQ2 : toSigned 24 ((p + ua) % 16777216) * 16777216 + (m : Int)
            = 2 * (A * ((Bu % 2 ^ k : Nat) : Int) * 2 ^ (23 - k))
              + ((Bu / 2 ^ k : Nat) : Int) := by
          rw [hwrap]; exact hv1eq
        refine ⟨asr1_lt (Nat.mod_lt _ (by norm_num)), by simp only; omega, ?_, ?_⟩
        · simp only [Nat.add_sub_cancel, Bool.false_eq_true, false_iff]
          omega
        · simp only [Nat.add_sub_cancel, h24s]
          rw [if_neg (show ¬ (¬ k + 1 = 0 ∧ Bu / 2 ^ k % 2 = 1) by omega)]
          rw [hdivsucc]
          have hbit : Bu / 2 ^ k % 2 = 0 := by omega
          rw [hbit, mul_zero, add_zero] at hmodsucc
          rw [hmodsucc, sub_zero]
          have hcomb := asrCombine ((p + ua) % 16777216) m
            (Nat.mod_lt _ (by norm_num)) hm
          omega
    · -- carry clear
      have hcond : ¬ (¬ k = 0 ∧ Bu / 2 ^ (k - 1) % 2 = 1) := fun hcd => hcc (hc.mpr hcd)
      rw [if_neg hcond, sub_zero] at heq
      have heq2 : toSigned 24 p * 16777216 + (m : Int)
          = 2 * (A * ((Bu % 2 ^ k : Nat) : Int) * 2 ^ (23 - k))
            + ((Bu / 2 ^ k : Nat) : Int) := by
        linear_combination heq + A * ((Bu % 2 ^ k : Nat) : Int) * hEsplit
      have hpar : m % 2 = Bu / 2 ^ k % 2 := by omega
      by_cases hbb : m % 2 = 1
      · -- carry clear, multiplier bit set: subtract the multiplicand
        have hstep : mulStep ua ⟨p, m, c⟩ =
            ⟨asr1 ((p + (16777216 - ua)) % 16777216),
             m / 2 + 8388608 * ((p + (16777216 - ua)) % 16777216 % 2),
             true⟩ := by
          simp [mulStep, hcc, hbb]
        rw [hstep]
        have hYb := intMulBound 8388607 (2 ^ k) (2 ^ (23 - k)) A
          (((Bu % 2 ^ k : Nat) : Int) - 2 ^ k) hA1 hA2 (by omega) (by omega) (by positivity)
        have hlin2 : (8388607:Int) * 2 ^ k * 2 ^ (23 - k) = 8388607 * 8388608 := by
          rw [mul_assoc, hKE]
        rw [hlin2] at hYb
        have hv2eq : (toSigned 24 p - A) * 16777216 + (m : Int)
            = 2 * (A * (((Bu % 2 ^ k : Nat) : Int) - 2 ^ k) * 2 ^ (23 - k))
              + ((Bu / 2 ^ k : Nat) : Int) := by
          linear_combination heq + A * (((Bu % 2 ^ k : Nat) : Int) - 2 ^ k) * hEsplit
            + A * hKE24
        have hcong2 : ((16777216 - ua : Nat) : Int) % 16777216 = (-A) % 16777216 := by
          omega
        have hr2a : -8388608 ≤ toSigned 24 p + -A := by omega
        have hr2b : toSigned 24 p + -A < 8388608 := by omega
        have hwrap2 := wrapAdd24 hp (show 16777216 - ua < 16777216 by omega) hcong2 hr2a hr2b
        have hEQ2 : toSigned 24 ((p + (16777216 - ua)) % 16777216) * 16777216 + (m : Int)
            = 2 * (A * (((Bu % 2 ^ k : Nat) : Int) - 2 ^ k) * 2 ^ (23 - k))
              + ((Bu / 2 ^ k : Nat) : Int) := by
          rw [hwrap2]
          linear_combination hv2eq
        refine ⟨asr1_lt (Nat.mod_lt _ (by norm_num)), by simp only; omega, ?_, ?_⟩
        · simp only [Nat.add_sub_cancel, eq_self_iff_true, true_iff]
          omega
        · simp only [Nat.add_sub_cancel, h24s]
          rw [if_pos (show ¬ k + 1 = 0 ∧ Bu / 2 ^ k % 2 = 1 by omega)]
          rw [hdivsucc]
          have hbit : Bu / 2 ^ k % 2 = 1 := by omega
          rw [hbit, mul_one] at hmodsucc
          rw [hmodsucc]
          have hcoef : A * (((Bu % 2 ^ k + 2 ^ k : Nat) : Int) - 2 ^ (k + 1)) * 2 ^ (23 - k)
              = A * (((Bu % 2 ^ k : Nat) : Int) - 2 ^ k) * 2 ^ (23 - k) := by
            push_cast
            ring
          rw [hcoef]
          have hcomb := asrCombine ((p + (16777216 - ua)) % 16777216) m
            (Nat.mod_lt _ (by norm_num)) hm
          omega
      · -- carry clear, multiplier bit clear: pure shift
        have hstep : mulStep ua ⟨p, m, c⟩ =
            ⟨asr1 p, m / 2 + 8388608 * (p % 2), false⟩ := by
          simp [mulStep, hcc, hbb]
        rw [hstep]
        refine ⟨asr1_lt hp, by simp only; omega, ?_, ?_⟩
        · simp only [Nat.add_sub_cancel, Bool.false_eq_true, false_iff]
          omega
        · simp only [Nat.add_sub_cancel, h24s]
          rw [if_neg (show ¬ (¬ k + 1 = 0 ∧ Bu / 2 ^ k % 2 = 1) by omega)]
          rw [hdivsucc]
          have hbit : Bu / 2 ^ k % 2 = 0 := by omega
          rw [hbit, mul_zero, add_zero] at hmodsucc
          rw [hmodsucc, sub_zero]
          have hcomb := asrCombine p m hp hm
          omega

/-! Multiplier correctness: asm_mulsat24 computes the exact saturated product. -/

theorem toSigned24_lin {p : Nat} (hp : p < 16777216) :
    toSigned 24 p = (p : Int) - 16777216 * ((p / 8388608 : Nat) : Int) := by
  rw [toSigned24_def]
  split_ifs with h
  · have : p / 8388608 = 1 := by omega
    rw [this]
    push_cast
    ring
  · have : p / 8388608 = 0 := by omega
    rw [this]
    push_cast
    ring

theorem mulLoop_final (ua Bu : Nat) (A : Int) (hua : ua < 16777216) (hua0 : 0 < ua)
    (hBu : Bu < 16777216) (hA1 : -8388607 ≤ A) (hA2 : A ≤ 8388607)
    (hcong : (ua : Int) % 16777216 = A % 16777216) :
    (mulLoop ua 24 ⟨0, Bu, false⟩).p < 16777216 ∧
    (mulLoop ua 24 ⟨0, Bu, false⟩).m < 16777216 ∧
    toSigned 24 (mulLoop ua 24 ⟨0, Bu, false⟩).p * 16777216
        + ((mulLoop ua 24 ⟨0, Bu, false⟩).m : Int)
      = A * toSigned 24 Bu := by
  obtain ⟨hp, hm, _, heq⟩ :=
    mulLoop_inv ua Bu A hua hua0 hBu hA1 hA2 hcong 24 (le_refl 24)
  refine ⟨hp, hm, ?_⟩
  rw [heq]
  have e24 : (2:Nat) ^ 24 = 16777216 := by norm_num
  have e23 : (2:Nat) ^ 23 = 8388608 := by norm_num
  have h1 : Bu % 2 ^ 24 = Bu := by omega
  have h2 : Bu / 2 ^ 24 = 0 := by omega
  have h3 : (8388608 ≤ Bu) ↔ (¬ 24 = 0 ∧ Bu / 2 ^ 23 % 2 = 1) := by
    constructor
    · intro h
      refine ⟨by norm_num, ?_⟩
      omega
    · intro h
      have h4 := h.2
      omega
  rw [h1, h2, toSigned24_def]
  by_cases hs : 8388608 ≤ Bu
  · rw [if_pos hs, if_pos (h3.mp hs)]
    push_cast
    norm_num
  · rw [if_neg hs, if_neg (fun hcd => hs (h3.mpr hcd))]
    push_cast
    norm_num

/-- Correctness of asm_mulsat24 on every well-formed input: the Booth loop and
the sign-directed range check compute the exact mathematical product saturated
to the 24-bit range. -/
theorem mulsat24_correct (a b : Int24Raw) (ha : a.Wf) (hb : b.Wf) :
    asm_mulsat24 a b = i32_to_i24raw_sat (s24 a * s24 b) := by
  have hua := u24_lt ha
  have hub := u24_lt hb
  have ela := s24_lin ha
  have elb := s24_lin hb
  rw [asm_mulsat24]
  by_cases h0 : u24 a = 0 ∨ u24 b = 0
  · rw [if_pos h0]
    have hzero : s24 a * s24 b = 0 := by
      rcases h0 with h | h
      · have hz : s24 a = 0 := by omega
        rw [hz, zero_mul]
      · have hz : s24 b = 0 := by omega
        rw [hz, mul_zero]
    rw [hzero]
    decide
  · rw [if_neg h0]
    push_neg at h0
    obtain ⟨ha0, hb0⟩ := h0
    have hA0 : s24 a ≠ 0 := by omega
    have hB0 : s24 b ≠ 0 := by omega
    have hBneg := sign_iff_s24 hb
    have hAneg := sign_iff_s24 ha
    by_cases hmin : u24 a = 8388608
    · rw [if_pos hmin]
      have hAmin : s24 a = -8388608 := by omega
      by_cases hbs : 128 ≤ b.b2
      · rw [if_pos hbs]
        have hBn : s24 b ≤ -1 := by omega
        refine (i32sat_max ?_).symm
        rw [hAmin]
        nlinarith
      · rw [if_neg hbs]
        have hBp : 1 ≤ s24 b := by omega
        refine (i32sat_min ?_).symm
        rw [hAmin]
        nlinarith
    · rw [if_neg hmin]
      have hA1 : -8388607 ≤ s24 a := by omega
      have hA2 : s24 a ≤ 8388607 := by omega
      have hcong : ((u24 a : Nat) : Int) % 16777216 = s24 a % 16777216 := by omega
      obtain ⟨hp, hm, heq⟩ :=
        mulLoop_final (u24 a) (u24 b) (s24 a) hua (by omega) hub hA1 hA2 hcong
      have hsb : toSigned 24 (u24 b) = s24 b := by
        rw [toSigned24_lin hub, elb]
      rw [hsb] at heq
      rw [toSigned24_lin hp] at heq
      have hmI : ((mulLoop (u24 a) 24 ⟨0, u24 b, false⟩).m : Int) < 16777216 := by
        exact_mod_cast hm
      -- sign of the product
      by_cases hsame : (128 ≤ a.b2) ↔ (128 ≤ b.b2)
      · rw [if_pos hsame]
        have hpos : 0 < s24 a * s24 b := by
          by_cases has : 128 ≤ a.b2
          · exact mul_pos_of_neg_of_neg (by omega) (by omega)
          · have h1 : ¬ 128 ≤ b.b2 := fun hh => has (hsame.mpr hh)
            exact mul_pos (by omega) (by omega)
        by_cases hm1 : (mulLoop (u24 a) 24 ⟨0, u24 b, false⟩).m / 8388608 = 1
        · rw [if_pos hm1]
          refine (i32sat_max ?_).symm
          omega
        · rw [if_neg hm1]
          by_cases hp0 : (mulLoop (u24 a) 24 ⟨0, u24 b, false⟩).p ≠ 0
          · rw [if_pos hp0]
            refine (i32sat_max ?_).symm
            omega
          · rw [if_neg hp0]
            push_neg at hp0
            refine raw_ext (wf_ofU24 _) (wf_i32sat _) ?_
            rw [u24_ofU24 hm, i32sat_exact (by omega) (by omega)]
            omega
      · rw [if_neg hsame]
        have hneg : s24 a * s24 b < 0 := by
          by_cases has : 128 ≤ a.b2
          · have h1 : ¬ 128 ≤ b.b2 := fun hh => hsame (iff_of_true has hh)
            exact mul_neg_of_neg_of_pos (by omega) (by omega)
          · have h1 : 128 ≤ b.b2 := by
              by_contra h2
              exact hsame (iff_of_false has h2)
            exact mul_neg_of_pos_of_neg (by omega) (by omega)
        by_cases hm0 : (mulLoop (u24 a) 24 ⟨0, u24 b, false⟩).m / 8388608 = 0
        · rw [if_pos hm0]
          refine (i32sat_min ?_).symm
          omega
        · rw [if_neg hm0]
          by_cases hpf : (mulLoop (u24 a) 24 ⟨0, u24 b, false⟩).p ≠ 16777215
          · rw [if_pos hpf]
            refine (i32sat_min ?_).symm
            omega
          · rw [if_neg hpf]
            push_neg at hpf
            refine raw_ext (wf_ofU24 _) (wf_i32sat _) ?_
            rw [u24_ofU24 hm, i32sat_exact (by omega) (by omega)]
            omega

/-- C3 amended: addition and subtraction equal the 32-bit-widened saturated
reference on all inputs; multiplication equals the exactly-widened saturated
mathematical product, and agrees with the 32-bit-native reference exactly
where the product fits in the 32-bit range (outside it the native 32-bit
multiply wraps in release builds or panics in debug builds). -/
theorem add_sub_mul_reference (a b : Int24Raw) (ha : a.Wf) (hb : b.Wf) :
    add24 a b = ref32Add a b ∧ sub24 a b = ref32Sub a b ∧
    asm_mulsat24 a b = satRef (s24 a * s24 b) ∧
    (-2147483648 ≤ s24 a * s24 b → s24 a * s24 b < 2147483648 →
      asm_mulsat24 a b = ref32Mul a b) := by
  have hra := s24_range ha
  have hrb := s24_range hb
  refine ⟨?_, ?_, mulsat24_correct a b ha hb, ?_⟩
  · rw [add24_correct a b ha hb, ref32Add, wrap32_id (by omega) (by omega)]
  · rw [sub24_correct a b ha hb, ref32Sub, wrap32_id (by omega) (by omega)]
  · intro h1 h2
    rw [mulsat24_correct a b ha hb, ref32Mul, wrap32_id h1 h2]

/-- Witness for `add_sub_mul_reference` at 1000 and 1010. -/
theorem add_sub_mul_reference_witness :
    add24 (i32_to_i24raw_sat 1000) (i32_to_i24raw_sat 1010)
        = ref32Add (i32_to_i24raw_sat 1000) (i32_to_i24raw_sat 1010) ∧
    asm_mulsat24 (i32_to_i24raw_sat 1000) (i32_to_i24raw_sat 1010)
        = ref32Mul (i32_to_i24raw_sat 1000) (i32_to_i24raw_sat 1010) :=
  ⟨(add_sub_mul_reference (i32_to_i24raw_sat 1000) (i32_to_i24raw_sat 1010)
      (by decide) (by decide)).1,
   (add_sub_mul_reference (i32_to_i24raw_sat 1000) (i32_to_i24raw_sat 1010)
      (by decide) (by decide)).2.2.2 (by decide) (by decide)⟩

/-! Restoring divider loop invariant, generic in the register width `w`. -/

theorem boolIf_parity (x : Nat) :
    (if (decide (x % 2 = 1)) = true then 1 else 0) = x % 2 := by
  by_cases h : x % 2 = 1
  · simp [h]
  · simp [h]
    omega

theorem divLoop_succ (w d k : Nat) (s : DState) :
    divLoop w d (k + 1) s = divStep w d (divLoop w d k s) := by
  induction k generalizing s with
  | zero => rfl
  | succ k ih =>
    show divLoop w d (k + 1) (divStep w d s) = _
    rw [ih (divStep w d s)]
    rfl

theorem divLoop_inv (w d N : Nat) (hw : 1 ≤ w) (hd1 : 1 ≤ d) (hd2 : d < 2 ^ (w - 1))
    (hN : N < 2 ^ (w - 1)) :
    ∀ k, k ≤ w →
      divLoop w d k ⟨N, 0, false⟩
        = ⟨N * 2 ^ k % 2 ^ w + N / 2 ^ (w - k) / d / 2,
           N / 2 ^ (w - k) % d,
           decide (N / 2 ^ (w - k) / d % 2 = 1)⟩ := by
  have hwsplit : (2:Nat) ^ w = 2 ^ (w - 1) * 2 := by
    rw [← pow_succ]
    congr 1
    omega
  intro k
  induction k with
  | zero =>
    intro _
    show (⟨N, 0, false⟩ : DState) = _
    have hz : w - 0 = w := by omega
    rw [hz]
    have hN0 : N / 2 ^ w = 0 := Nat.div_eq_of_lt (by omega)
    rw [hN0]
    have hNm : N * 2 ^ 0 % 2 ^ w = N := by
      rw [pow_zero, Nat.mul_one]
      exact Nat.mod_eq_of_lt (by omega)
    rw [hNm]
    norm_num
  | succ k ih =>
    intro hk1
    have hkw : k < w := by omega
    rw [divLoop_succ, ih (by omega)]
    have hw1 : w - (k + 1) = w - k - 1 := by omega
    rw [hw1]
    -- power bookkeeping
    have hp1 : (2:Nat) ^ (w - k) = 2 ^ (w - k - 1) * 2 := by
      rw [← pow_succ]
      congr 1
      omega
    have hp2 : (2:Nat) ^ w = 2 ^ (w - k) * 2 ^ k := by
      rw [← pow_add]
      congr 1
      omega
    have hp3 : (2:Nat) ^ w = 2 ^ (w - k - 1) * 2 ^ (k + 1) := by
      rw [← pow_add]
      congr 1
      omega
    have hp4 : (2:Nat) ^ (w - 1) = 2 ^ (w - k - 1) * 2 ^ k := by
      rw [← pow_add]
      congr 1
      omega
    have hwk1pos : 0 < (2:Nat) ^ (w - k - 1) := Nat.two_pow_pos (w - k - 1)
    have hpow2k : (2:Nat) ^ (k + 1) = 2 * 2 ^ k := by
      rw [pow_succ]
      ring
    -- expose the step and the carry parity
    simp only [divStep]
    simp only [boolIf_parity]
    -- product decompositions of the shift register patterns
    have hI1 : N * 2 ^ k % 2 ^ w = N % 2 ^ (w - k) * 2 ^ k := by
      rw [hp2]
      exact Nat.mul_mod_mul_right _ _ _
    have hI2 : N * 2 ^ (k + 1) % 2 ^ w = N % 2 ^ (w - k - 1) * 2 ^ (k + 1) := by
      rw [hp3]
      exact Nat.mul_mod_mul_right _ _ _
    rw [hI1, hI2]
    -- flatten the nested quantities
    obtain ⟨T', hT'⟩ : ∃ x, x = N / 2 ^ (w - k - 1) := ⟨_, rfl⟩
    obtain ⟨T, hT⟩ : ∃ x, x = N / 2 ^ (w - k) := ⟨_, rfl⟩
    obtain ⟨G', hG'⟩ : ∃ x, x = N % 2 ^ (w - k - 1) := ⟨_, rfl⟩
    obtain ⟨G, hG⟩ : ∃ x, x = N % 2 ^ (w - k) := ⟨_, rfl⟩
    rw [← hT', ← hT, ← hG, ← hG']
    -- relations between the flat quantities
    have hTT : T = T' / 2 := by
      rw [hT, hT', hp1, Nat.div_div_eq_div_mul]
    have hT'2 : 2 * T + T' % 2 = T' := by
      rw [hTT]
      exact Nat.div_add_mod T' 2
    have hGsplit : G = G' + 2 ^ (w - k - 1) * (T' % 2) := by
      rw [hG, hG', hT', hp1]
      exact Nat.mod_mul
    have hTlt : T < 2 ^ k := by
      rw [hT]
      exact Nat.div_lt_of_lt_mul (by rw [← hp2]; omega)
    have hG'lt : G' < 2 ^ (w - k - 1) := by
      rw [hG']
      exact Nat.mod_lt _ hwk1pos
    have hRlt : T % d < d := Nat.mod_lt _ (by omega)
    have hPT := Nat.div_add_mod T d
    obtain ⟨q, hq⟩ : ∃ x, x = T / d := ⟨_, rfl⟩
    have hqle : q ≤ T := by rw [hq]; exact Nat.div_le_self _ _
    rw [← hq] at hPT ⊢
    obtain ⟨P, hP⟩ : ∃ x, x = d * q := ⟨_, rfl⟩
    rw [← hP] at hPT
    -- products with the power atoms
    have hMsplit : G * 2 ^ k = G' * 2 ^ k + T' % 2 * 2 ^ (w - 1) := by
      rw [hGsplit, hp4]
      ring
    have hMdbl : G' * 2 ^ (k + 1) = 2 * (G' * 2 ^ k) := by
      rw [hpow2k]
      ring
    have hMb1 : (G' + 1) * 2 ^ k = G' * 2 ^ k + 2 ^ k := by ring
    have hMb2 : (G' + 1) * 2 ^ (k + 1) = G' * 2 ^ (k + 1) + 2 ^ (k + 1) := by ring
    have hMbound : (G' + 1) * 2 ^ k ≤ 2 ^ (w - 1) := by
      rw [hp4]
      exact Nat.mul_le_mul_right _ hG'lt
    have hMbound2 : (G' + 1) * 2 ^ (k + 1) ≤ 2 ^ w := by
      rw [hp3]
      exact Nat.mul_le_mul_right _ hG'lt
    obtain ⟨M1, hM1⟩ : ∃ x, x = G * 2 ^ k := ⟨_, rfl⟩
    obtain ⟨M2, hM2⟩ : ∃ x, x = G' * 2 ^ k := ⟨_, rfl⟩
    obtain ⟨M3, hM3⟩ : ∃ x, x = (G' + 1) * 2 ^ k := ⟨_, rfl⟩
    obtain ⟨M4, hM4⟩ : ∃ x, x = G' * 2 ^ (k + 1) := ⟨_, rfl⟩
    obtain ⟨M5, hM5⟩ : ∃ x, x = (G' + 1) * 2 ^ (k + 1) := ⟨_, rfl⟩
    rw [← hM1, ← hM2] at hMsplit
    rw [← hM4, ← hM2] at hMdbl
    rw [← hM3, ← hM2] at hMb1
    rw [← hM5, ← hM4] at hMb2
    rw [← hM3] at hMbound
    rw [← hM5] at hMbound2
    rw [← hM1, ← hM4]
    -- the extracted top bit of the shift register
    have hbit : (M1 + q / 2) / 2 ^ (w - 1) = T' % 2 := by
      rcases Nat.mod_two_eq_zero_or_one T' with hb | hb
      · rw [hb] at hMsplit ⊢
        exact Nat.div_eq_of_lt (by omega)
      · rw [hb] at hMsplit ⊢
        exact Nat.div_eq_of_lt_le (by omega) (by omega)
    rw [hbit]
    -- case split on the extracted bit, then on the trial subtraction
    rcases Nat.mod_two_eq_zero_or_one T' with hb | hb
    · rw [hb] at hMsplit hT'2 ⊢
      split_ifs with hge
      · have hdm : T' / d = 2 * q + 1 ∧ T' % d = 2 * (T % d) + 0 - d := by
          rw [Nat.div_mod_unique (show 0 < d by omega)]
          refine ⟨?_, by omega⟩
          have e1 : d * (2 * q + 1) = 2 * P + d := by rw [hP]; ring
          rw [e1]
          omega
        rw [DState.mk.injEq]
        refine ⟨?_, hdm.2.symm, ?_⟩
        · rw [hdm.1]
          have hq21 : (2 * q + 1) / 2 = q := by omega
          rw [hq21]
          have hval : 2 * (M1 + q / 2) + q % 2 = M4 + q := by omega
          rw [hval]
          exact Nat.mod_eq_of_lt (by omega)
        · rw [hdm.1]
          have h1 : (2 * q + 1) % 2 = 1 := by omega
          rw [h1]
          rfl
      · have hdm : T' / d = 2 * q ∧ T' % d = 2 * (T % d) + 0 := by
          rw [Nat.div_mod_unique (show 0 < d by omega)]
          refine ⟨?_, by omega⟩
          have e1 : d * (2 * q) = 2 * P := by rw [hP]; ring
          rw [e1]
          omega
        rw [DState.mk.injEq]
        refine ⟨?_, hdm.2.symm, ?_⟩
        · rw [hdm.1]
          have hq21 : 2 * q / 2 = q := by omega
          rw [hq21]
          have hval : 2 * (M1 + q / 2) + q % 2 = M4 + q := by omega
          rw [hval]
          exact Nat.mod_eq_of_lt (by omega)
        · rw [hdm.1]
          have h1 : 2 * q % 2 = 0 := by omega
          rw [h1]
          rfl
    · rw [hb] at hMsplit hT'2 ⊢
      split_ifs with hge
      · have hdm : T' / d = 2 * q + 1 ∧ T' % d = 2 * (T % d) + 1 - d := by
          rw [Nat.div_mod_unique (show 0 < d by omega)]
          refine ⟨?_, by omega⟩
          have e1 : d * (2 * q + 1) = 2 * P + d := by rw [hP]; ring
          rw [e1]
          omega
        rw [DState.mk.injEq]
        refine ⟨?_, hdm.2.symm, ?_⟩
        · rw [hdm.1]
          have hq21 : (2 * q + 1) / 2 = q := by omega
          rw [hq21]
          have hval : 2 * (M1 + q / 2) + q % 2 = M4 + q + 2 ^ w := by omega
          rw [hval, Nat.add_mod_right]
          exact Nat.mod_eq_of_lt (by omega)
        · rw [hdm.1]
          have h1 : (2 * q + 1) % 2 = 1 := by omega
          rw [h1]
          rfl
      · have hdm : T' / d = 2 * q ∧ T' % d = 2 * (T % d) + 1 := by
          rw [Nat.div_mod_unique (show 0 < d by omega)]
          refine ⟨?_, by omega⟩
          have e1 : d * (2 * q) = 2 * P := by rw [hP]; ring
          rw [e1]
          omega
        rw [DState.mk.injEq]
        refine ⟨?_, hdm.2.symm, ?_⟩
        · rw [hdm.1]
          have hq21 : 2 * q / 2 = q := by omega
          rw [hq21]
          have hval : 2 * (M1 + q / 2) + q % 2 = M4 + q + 2 ^ w := by omega
          rw [hval, Nat.add_mod_right]
          exact Nat.mod_eq_of_lt (by omega)
        · rw [hdm.1]
          have h1 : 2 * q % 2 = 0 := by omega
          rw [h1]
          rfl

theorem udiv_eq (w d n : Nat) (hw : 1 ≤ w) (hd1 : 1 ≤ d) (hd2 : d < 2 ^ (w - 1))
    (hn : n < 2 ^ (w - 1)) : udiv w d n = n / d := by
  rw [udiv, divLoop_inv w d n hw hd1 hd2 hn w (le_refl w)]
  rw [divFinish]
  simp only
  have h0 : w - w = 0 := Nat.sub_self w
  rw [h0, pow_zero, Nat.div_one, Nat.mul_mod_left, boolIf_parity]
  have h1 : 2 * (0 + n / d / 2) + n / d % 2 = n / d := by omega
  rw [h1]
  have hws : (2:Nat) ^ w = 2 ^ (w - 1) * 2 := by
    rw [← pow_succ]
    congr 1
    omega
  have hle : n / d ≤ n := Nat.div_le_self _ _
  exact Nat.mod_eq_of_lt (by omega)

theorem tdiv_natCast (m n : Nat) : (m : Int).tdiv (n : Int) = ((m / n : Nat) : Int) := rfl

/-! Signed divider correctness on the non-special region. -/

theorem absSat24_of_pos {u : Nat} (h : u < 8388608) : absSat24 u = u := by
  rw [absSat24, if_neg (by omega)]

theorem absSat24_of_neg {u : Nat} (h1 : 8388608 < u) (h2 : u < 16777216) :
    absSat24 u = 16777216 - u := by
  rw [absSat24, if_pos (by omega)]
  show (if 8388608 ≤ negWrap24 u then 8388607 else negWrap24 u) = 16777216 - u
  have hn : negWrap24 u = 16777216 - u := by
    rw [negWrap24]
    exact Nat.mod_eq_of_lt (by omega)
  rw [hn, if_neg (by omega)]

theorem absSat24_min : absSat24 8388608 = 8388607 := by decide

theorem i32sat_natlt {m : Nat} (h : m < 8388608) :
    i32_to_i24raw_sat (m : Int) = ofU24 m := by
  unfold i32_to_i24raw_sat
  rw [clamp24_of_range (by omega) (by omega)]
  congr 1
  omega

theorem i32sat_negnat {q : Nat} (h : q ≤ 8388608) :
    i32_to_i24raw_sat (-(q : Int)) = ofU24 (negWrap24 q) := by
  unfold i32_to_i24raw_sat
  rw [clamp24_of_range (by omega) (by omega)]
  rw [negWrap24]
  congr 1
  omega

theorem div24_correct (a b : Int24Raw) (ha : a.Wf) (hb : b.Wf)
    (hb0 : s24 b ≠ 0) (hamin : s24 a ≠ -8388608) (hbmin : s24 b ≠ -8388608) :
    div24 a b = i32_to_i24raw_sat ((s24 a).tdiv (s24 b)) := by
  have hua := u24_lt ha
  have hub := u24_lt hb
  have hb0' : u24 b ≠ 0 := by
    intro h
    apply hb0
    rw [s24_of_pos hb (by omega), h]
    rfl
  have hamin' : u24 a ≠ 8388608 := by
    intro h
    apply hamin
    rw [s24_of_neg ha (by omega), h]
    decide
  have hbmin' : u24 b ≠ 8388608 := by
    intro h
    apply hbmin
    rw [s24_of_neg hb (by omega), h]
    decide
  rw [div24]
  simp only [asm_divsat24]
  rw [if_neg hb0', if_neg (fun h => hamin' h.2)]
  show (if (decide ((128 ≤ a.b2) ≠ (128 ≤ b.b2))) = true
      then ofU24 (negWrap24 (udiv 24 (absSat24 (u24 b)) (absSat24 (u24 a))))
      else ofU24 (udiv 24 (absSat24 (u24 b)) (absSat24 (u24 a)))) = _
  rcases le_or_lt 8388608 (u24 a) with hsa | hsa <;>
    rcases le_or_lt 8388608 (u24 b) with hsb | hsb
  · -- both negative
    have hA : 128 ≤ a.b2 := (sign_iff ha).mpr hsa
    have hB : 128 ≤ b.b2 := (sign_iff hb).mpr hsb
    have htP : ¬((128 ≤ a.b2) ≠ (128 ≤ b.b2)) := fun hne => hne (propext (iff_of_true hA hB))
    rw [decide_eq_false htP, if_neg (by decide)]
    rw [absSat24_of_neg (by omega) hub, absSat24_of_neg (by omega) hua]
    rw [udiv_eq 24 (16777216 - u24 b) (16777216 - u24 a) (by norm_num) (by omega)
      (by norm_num; omega) (by norm_num; omega)]
    rw [s24_of_neg ha hsa, s24_of_neg hb hsb]
    have hca : (u24 a : Int) - 16777216 = -(((16777216 - u24 a : Nat)) : Int) := by omega
    have hcb : (u24 b : Int) - 16777216 = -(((16777216 - u24 b : Nat)) : Int) := by omega
    rw [hca, hcb, Int.neg_tdiv, Int.tdiv_neg, neg_neg]
    rw [tdiv_natCast]
    rw [i32sat_natlt (by
      have := Nat.div_le_self (16777216 - u24 a) (16777216 - u24 b)
      omega)]
  · -- a negative, b positive
    have hA : 128 ≤ a.b2 := (sign_iff ha).mpr hsa
    have hB : ¬128 ≤ b.b2 := fun h => absurd ((sign_iff hb).mp h) (by omega)
    have htP : (128 ≤ a.b2) ≠ (128 ≤ b.b2) := by
      intro he
      rw [he] at hA
      exact hB hA
    rw [decide_eq_true htP, if_pos rfl]
    rw [absSat24_of_pos hsb, absSat24_of_neg (by omega) hua]
    rw [udiv_eq 24 (u24 b) (16777216 - u24 a) (by norm_num) (by omega)
      (by norm_num; omega) (by norm_num; omega)]
    rw [s24_of_neg ha hsa, s24_of_pos hb hsb]
    have hca : (u24 a : Int) - 16777216 = -(((16777216 - u24 a : Nat)) : Int) := by omega
    rw [hca, Int.neg_tdiv]
    rw [tdiv_natCast]
    rw [i32sat_negnat (by
      have := Nat.div_le_self (16777216 - u24 a) (u24 b)
      omega)]
  · -- a positive, b negative
    have hA : ¬128 ≤ a.b2 := fun h => absurd ((sign_iff ha).mp h) (by omega)
    have hB : 128 ≤ b.b2 := (sign_iff hb).mpr hsb
    have htP : (128 ≤ a.b2) ≠ (128 ≤ b.b2) := by
      intro he
      rw [he] at hA
      exact hA hB
    rw [decide_eq_true htP, if_pos rfl]
    rw [absSat24_of_neg (by omega) hub, absSat24_of_pos hsa]
    rw [udiv_eq 24 (16777216 - u24 b) (u24 a) (by norm_num) (by omega)
      (by norm_num; omega) (by norm_num; omega)]
    rw [s24_of_pos ha hsa, s24_of_neg hb hsb]
    have hcb : (u24 b : Int) - 16777216 = -(((16777216 - u24 b : Nat)) : Int) := by omega
    rw [hcb, Int.tdiv_neg]
    rw [tdiv_natCast]
    rw [i32sat_negnat (by
      have := Nat.div_le_self (u24 a) (16777216 - u24 b)
      omega)]
  · -- both positive
    have hA : ¬128 ≤ a.b2 := fun h => absurd ((sign_iff ha).mp h) (by omega)
    have hB : ¬128 ≤ b.b2 := fun h => absurd ((sign_iff hb).mp h) (by omega)
    have htP : ¬((128 ≤ a.b2) ≠ (128 ≤ b.b2)) := fun hne => hne (propext (iff_of_false hA hB))
    rw [decide_eq_false htP, if_neg (by decide)]
    rw [absSat24_of_pos hsb, absSat24_of_pos hsa]
    rw [udiv_eq 24 (u24 b) (u24 a) (by norm_num) (by omega)
      (by norm_num; omega) (by norm_num; omega)]
    rw [s24_of_pos ha hsa, s24_of_pos hb hsb]
    rw [tdiv_natCast]
    rw [i32sat_natlt (by
      have := Nat.div_le_self (u24 a) (u24 b)
      omega)]

/-! Negation, absolute value and arithmetic-shift correctness. -/

theorem negsat24_correct (a : Int24Raw) (ha : a.Wf) :
    asm_negsat24 a = i32_to_i24raw_sat (-(s24 a)) := by
  have hua := u24_lt ha
  rw [asm_negsat24]
  show (if 8388608 ≤ u24 a ∧ 8388608 ≤ negWrap24 (u24 a) then maxRaw
        else ofU24 (negWrap24 (u24 a))) = _
  rcases le_or_lt 8388608 (u24 a) with hs | hs
  · rcases eq_or_lt_of_le hs with he | hgt
    · rw [if_pos ⟨hs, by rw [← he]; decide⟩]
      rw [s24_of_neg ha hs, ← he]
      rw [i32sat_max (by omega)]
    · have hnw : negWrap24 (u24 a) = 16777216 - u24 a := by
        rw [negWrap24]
        exact Nat.mod_eq_of_lt (by omega)
      rw [if_neg (by rw [hnw]; omega)]
      rw [hnw, s24_of_neg ha hs]
      have hc : -((u24 a : Int) - 16777216) = ((16777216 - u24 a : Nat) : Int) := by omega
      rw [hc, i32sat_natlt (by omega)]
  · rw [if_neg (by omega)]
    rw [s24_of_pos ha hs]
    rw [i32sat_negnat (by omega)]

theorem abs24_correct (a : Int24Raw) (ha : a.Wf) :
    abs24 a = i32_to_i24raw_sat (satAbsI (s24 a)) := by
  rw [abs24, satAbsI]
  by_cases hneg : 128 ≤ a.b2
  · rw [if_pos hneg, negsat24_correct a ha]
    have hlt : s24 a < 0 := (sign_iff_s24 ha).mp hneg
    by_cases hm : s24 a = -8388608
    · rw [if_pos hm, hm]
      rw [show -(-8388608:Int) = 8388608 by norm_num]
      rw [i32sat_max (by norm_num), i32sat_max (by norm_num)]
    · rw [if_neg hm, abs_of_neg hlt]
  · rw [if_neg hneg]
    have hpos : ¬ s24 a < 0 := fun h => hneg ((sign_iff_s24 ha).mpr h)
    rw [if_neg (fun h => hpos (by rw [h]; norm_num))]
    rw [abs_of_nonneg (le_of_not_lt hpos), i32sat_s24 ha]

theorem shr24_correct (a : Int24Raw) (ha : a.Wf) (c : Nat) :
    asm_shr24 a c = i32_to_i24raw_sat ((s24 a).fdiv (2 ^ c)) := by
  have hua := u24_lt ha
  have hK1 : (1:Nat) ≤ 2 ^ c := Nat.one_le_two_pow
  have hKc : ((2:Int)) ^ c = ((2 ^ c : Nat) : Int) := by push_cast; ring
  rw [asm_shr24]
  rcases le_or_lt 8388608 (u24 a) with hs | hs
  · rw [shrLoop_neg hs hua, s24_of_neg ha hs]
    rw [hKc, Int.fdiv_eq_ediv _ (by positivity)]
    have hval : (((u24 a + (2 ^ c - 1) * 16777216) / 2 ^ c : Nat) : Int)
        = ((u24 a : Int) - 16777216) / ((2 ^ c : Nat) : Int) + 16777216 := by
      rw [Int.natCast_div]
      have hN : ((u24 a + (2 ^ c - 1) * 16777216 : Nat) : Int)
          = ((u24 a : Int) - 16777216) + ((2 ^ c : Nat) : Int) * 16777216 := by omega
      rw [hN, Int.add_mul_ediv_left _ _ (by omega)]
    have hWlt : (u24 a + (2 ^ c - 1) * 16777216) / 2 ^ c < 16777216 :=
      Nat.div_lt_of_lt_mul (by omega)
    have hWge : 8388608 ≤ (u24 a + (2 ^ c - 1) * 16777216) / 2 ^ c := by
      rw [Nat.le_div_iff_mul_le (by positivity)]
      omega
    refine raw_ext (wf_ofU24 _) (wf_i32sat _) ?_
    rw [u24_ofU24 hWlt, u24_i32sat]
    rw [clamp24_of_range (by omega) (by omega)]
    omega
  · rw [shrLoop_pos hs, s24_of_pos ha hs]
    rw [hKc, Int.fdiv_eq_ediv _ (by positivity), ← Int.natCast_div]
    rw [i32sat_natlt (by
      have := Nat.div_le_self (u24 a) (2 ^ c)
      omega)]

/-! The 32-bit pre-shifted divider path. -/

theorem shl8div_correct (a b : Int24Raw) (ha : a.Wf) (hb : b.Wf)
    (hb0 : s24 b ≠ 0) (hamin : s24 a ≠ -8388608) (hbmin : s24 b ≠ -8388608)
    (hq1 : -8388608 < (s24 a * 256).tdiv (s24 b))
    (hq2 : (s24 a * 256).tdiv (s24 b) < 8388608) :
    shl24_by8_div24 a b = i32_to_i24raw_sat ((s24 a * 256).tdiv (s24 b)) := by
  have hua := u24_lt ha
  have hub := u24_lt hb
  have hb0' : u24 b ≠ 0 := by
    intro h
    apply hb0
    rw [s24_of_pos hb (by omega), h]
    rfl
  have hamin' : u24 a ≠ 8388608 := by
    intro h
    apply hamin
    rw [s24_of_neg ha (by omega), h]
    decide
  have hbmin' : u24 b ≠ 8388608 := by
    intro h
    apply hbmin
    rw [s24_of_neg hb (by omega), h]
    decide
  rw [shl24_by8_div24]
  simp only [asm_divsat24]
  rw [if_neg hb0', if_neg (fun h => hamin' h.2)]
  show (if (decide ((128 ≤ a.b2) ≠ (128 ≤ b.b2))) = true
      then ofU24 (negWrap24
        (if udiv 32 (absSat24 (u24 b)) (absSat24 (u24 a) * 256) / 16777216 ≠ 0
         then 8388607
         else udiv 32 (absSat24 (u24 b)) (absSat24 (u24 a) * 256) % 16777216))
      else ofU24
        (if udiv 32 (absSat24 (u24 b)) (absSat24 (u24 a) * 256) / 16777216 ≠ 0
         then 8388607
         else udiv 32 (absSat24 (u24 b)) (absSat24 (u24 a) * 256) % 16777216)) = _
  rcases le_or_lt 8388608 (u24 a) with hsa | hsa <;>
    rcases le_or_lt 8388608 (u24 b) with hsb | hsb
  · -- both negative
    have hA : 128 ≤ a.b2 := (sign_iff ha).mpr hsa
    have hB : 128 ≤ b.b2 := (sign_iff hb).mpr hsb
    have htP : ¬((128 ≤ a.b2) ≠ (128 ≤ b.b2)) := fun hne => hne (propext (iff_of_true hA hB))
    rw [decide_eq_false htP, if_neg (by decide)]
    rw [absSat24_of_neg (by omega) hub, absSat24_of_neg (by omega) hua]
    rw [udiv_eq 32 (16777216 - u24 b) ((16777216 - u24 a) * 256) (by norm_num) (by omega)
      (by norm_num; omega) (by norm_num; omega)]
    rw [s24_of_neg ha hsa, s24_of_neg hb hsb] at hq2 ⊢
    have hca : ((u24 a : Int) - 16777216) * 256
        = -((((16777216 - u24 a) * 256 : Nat)) : Int) := by
      push_cast
      omega
    have hcb : (u24 b : Int) - 16777216 = -(((16777216 - u24 b : Nat)) : Int) := by omega
    rw [hca, hcb, Int.neg_tdiv, Int.tdiv_neg, neg_neg, tdiv_natCast] at hq2 ⊢
    have hqlt : (16777216 - u24 a) * 256 / (16777216 - u24 b) < 8388608 := by
      exact_mod_cast hq2
    have hj : (16777216 - u24 a) * 256 / (16777216 - u24 b) / 16777216 = 0 := Nat.div_eq_of_lt (by omega)
    rw [if_neg (fun hne => hne hj)]
    rw [Nat.mod_eq_of_lt (by omega)]
    rw [i32sat_natlt hqlt]
  · -- a negative, b positive
    have hA : 128 ≤ a.b2 := (sign_iff ha).mpr hsa
    have hB : ¬128 ≤ b.b2 := fun h => absurd ((sign_iff hb).mp h) (by omega)
    have htP : (128 ≤ a.b2) ≠ (128 ≤ b.b2) := by
      intro he
      rw [he] at hA
      exact hB hA
    rw [decide_eq_true htP, if_pos rfl]
    rw [absSat24_of_pos hsb, absSat24_of_neg (by omega) hua]
    rw [udiv_eq 32 (u24 b) ((16777216 - u24 a) * 256) (by norm_num) (by omega)
      (by norm_num; omega) (by norm_num; omega)]
    rw [s24_of_neg ha hsa, s24_of_pos hb hsb] at hq1 ⊢
    have hca : ((u24 a : Int) - 16777216) * 256
        = -((((16777216 - u24 a) * 256 : Nat)) : Int) := by
      push_cast
      omega
    rw [hca, Int.neg_tdiv, tdiv_natCast] at hq1 ⊢
    have hqlt : (16777216 - u24 a) * 256 / u24 b < 8388608 := by
      have : -(8388608:Int) < -(((16777216 - u24 a) * 256 / u24 b : Nat) : Int) := hq1
      omega
    have hj : (16777216 - u24 a) * 256 / u24 b / 16777216 = 0 := Nat.div_eq_of_lt (by omega)
    rw [if_neg (fun hne => hne hj)]
    rw [Nat.mod_eq_of_lt (by omega)]
    rw [i32sat_negnat (by omega)]
  · -- a positive, b negative
    have hA : ¬128 ≤ a.b2 := fun h => absurd ((sign_iff ha).mp h) (by omega)
    have hB : 128 ≤ b.b2 := (sign_iff hb).mpr hsb
    have htP : (128 ≤ a.b2) ≠ (128 ≤ b.b2) := by
      intro he
      rw [he] at hA
      exact hA hB
    rw [decide_eq_true htP, if_pos rfl]
    rw [absSat24_of_neg (by omega) hub, absSat24_of_pos hsa]
    rw [udiv_eq 32 (16777216 - u24 b) (u24 a * 256) (by norm_num) (by omega)
      (by norm_num; omega) (by norm_num; omega)]
    rw [s24_of_pos ha hsa, s24_of_neg hb hsb] at hq1 ⊢
    have hca : (u24 a : Int) * 256 = (((u24 a * 256 : Nat)) : Int) := by push_cast; ring
    have hcb : (u24 b : Int) - 16777216 = -(((16777216 - u24 b : Nat)) : Int) := by omega
    rw [hca, hcb, Int.tdiv_neg, tdiv_natCast] at hq1 ⊢
    have hqlt : u24 a * 256 / (16777216 - u24 b) < 8388608 := by
      have : -(8388608:Int) < -((u24 a * 256 / (16777216 - u24 b) : Nat) : Int) := hq1
      omega
    have hj : u24 a * 256 / (16777216 - u24 b) / 16777216 = 0 := Nat.div_eq_of_lt (by omega)
    rw [if_neg (fun hne => hne hj)]
    rw [Nat.mod_eq_of_lt (by omega)]
    rw [i32sat_negnat (by omega)]
  · -- both positive
    have hA : ¬128 ≤ a.b2 := fun h => absurd ((sign_iff ha).mp h) (by omega)
    have hB : ¬128 ≤ b.b2 := fun h => absurd ((sign_iff hb).mp h) (by omega)
    have htP : ¬((128 ≤ a.b2) ≠ (128 ≤ b.b2)) := fun hne => hne (propext (iff_of_false hA hB))
    rw [decide_eq_false htP, if_neg (by decide)]
    rw [absSat24_of_pos hsb, absSat24_of_pos hsa]
    rw [udiv_eq 32 (u24 b) (u24 a * 256) (by norm_num) (by omega)
      (by norm_num; omega) (by norm_num; omega)]
    rw [s24_of_pos ha hsa, s24_of_pos hb hsb] at hq2 ⊢
    have hca : (u24 a : Int) * 256 = (((u24 a * 256 : Nat)) : Int) := by push_cast; ring
    rw [hca, tdiv_natCast] at hq2 ⊢
    have hqlt : u24 a * 256 / u24 b < 8388608 := by exact_mod_cast hq2
    have hj : u24 a * 256 / u24 b / 16777216 = 0 := Nat.div_eq_of_lt (by omega)
    rw [if_neg (fun hne => hne hj)]
    rw [Nat.mod_eq_of_lt (by omega)]
    rw [i32sat_natlt hqlt]

/-! Const-path equivalence helpers. -/

theorem cmp_const_eq (a b : Int24Raw) (ha : a.Wf) (hb : b.Wf) :
    constCmp a b = int24_cmp a b := by
  rw [constCmp, int24_cmp]
  by_cases h1 : s24 a = s24 b
  · rw [if_pos h1, (eq24_iff a b ha hb).mpr h1, if_pos rfl]
  · rw [if_neg h1]
    have he : eq24 a b = false := by
      rcases Bool.eq_false_or_eq_true (eq24 a b) with h | h
      · exact absurd ((eq24_iff a b ha hb).mp h) h1
      · exact h
    rw [he, if_neg Bool.false_ne_true]
    by_cases h2 : s24 b ≤ s24 a
    · rw [if_pos h2, (ge24_iff a b ha hb).mpr h2, if_pos rfl]
    · rw [if_neg h2]
      have hg : asm_ge24 a b = false := by
        rcases Bool.eq_false_or_eq_true (asm_ge24 a b) with h | h
        · exact absurd ((ge24_iff a b ha hb).mp h) h2
        · exact h
      rw [hg, if_neg Bool.false_ne_true]

theorem shl24_const_eq (a : Int24Raw) (ha : a.Wf) (count : Nat) (hc : count < 32)
    (h1 : -8388608 ≤ s24 a * 2 ^ count) (h2 : s24 a * 2 ^ count < 8388608) :
    constShl a count = some (asm_shl24 a count) := by
  have hua := u24_lt ha
  rw [constShl, if_pos hc, asm_shl24, shlLoop_eq hua]
  rw [wrap32_id (by omega) (by omega)]
  congr 1
  refine raw_ext (wf_i32sat _) (wf_ofU24 _) ?_
  rw [u24_i32sat, clamp24_of_range h1 h2]
  rw [u24_ofU24 (Nat.mod_lt _ (by norm_num))]
  have hlin : s24 a * 2 ^ count
      = ((u24 a * 2 ^ count : Nat) : Int)
        - 16777216 * (((u24 a / 8388608 : Nat) : Int) * 2 ^ count) := by
    rw [s24_lin ha]
    push_cast
    ring
  rw [hlin]
  rw [show ((u24 a * 2 ^ count : Nat) : Int)
        - 16777216 * (((u24 a / 8388608 : Nat) : Int) * 2 ^ count)
      = ((u24 a * 2 ^ count : Nat) : Int)
        + 16777216 * (-(((u24 a / 8388608 : Nat) : Int) * 2 ^ count)) by ring]
  rw [Int.add_mul_emod_self_left]
  omega

/-- **C7**: asm_divsat24 records the expected quotient sign as the xor of the
operand sign bits, then replaces each operand by its saturating absolute value
(8388607 for the minimum); hence dividing the minimum -8388608 by any divisor
of magnitude at least 2 yields the sign-adjusted truncated quotient of 8388607
by the divisor's saturated absolute value (negative result for a positive
divisor), e.g. div(-8388608, 2) = -4194303. -/
theorem div_min_uses_saturated_abs (b : Int24Raw) (hb : b.Wf) (h2 : 2 ≤ |s24 b|) :
    div24 minRaw b
      = i32_to_i24raw_sat
          ((if s24 b < 0 then 1 else -1) * (8388607:Int).tdiv (satAbsI (s24 b))) := by
  have hub := u24_lt hb
  rcases le_or_lt 8388608 (u24 b) with hs | hs
  · rcases eq_or_lt_of_le hs with he | hgt
    · have hbeq : b = minRaw := by
        rw [← ofU24_u24 hb, ← he]
        rfl
      rw [hbeq]
      decide
    · have hB := s24_of_neg hb hs
      have hBlt : s24 b < 0 := by omega
      rw [abs_of_neg hBlt, hB] at h2
      rw [div24]
      simp only [asm_divsat24]
      rw [if_neg (by omega : ¬ u24 b = 0)]
      rw [if_neg (fun hh => absurd hh.1 (by omega))]
      show (if (decide ((128 ≤ minRaw.b2) ≠ (128 ≤ b.b2))) = true
          then ofU24 (negWrap24 (udiv 24 (absSat24 (u24 b)) (absSat24 (u24 minRaw))))
          else ofU24 (udiv 24 (absSat24 (u24 b)) (absSat24 (u24 minRaw)))) = _
      have hA : (128:Nat) ≤ minRaw.b2 := by decide
      have hBb : 128 ≤ b.b2 := (sign_iff hb).mpr hs
      have htP : ¬((128 ≤ minRaw.b2) ≠ (128 ≤ b.b2)) :=
        fun hne => hne (propext (iff_of_true hA hBb))
      rw [decide_eq_false htP, if_neg Bool.false_ne_true]
      rw [show absSat24 (u24 minRaw) = 8388607 from rfl]
      rw [absSat24_of_neg hgt hub]
      rw [udiv_eq 24 (16777216 - u24 b) 8388607 (by norm_num) (by omega)
        (by norm_num; omega) (by norm_num)]
      rw [if_pos hBlt, one_mul]
      rw [satAbsI, if_neg (by omega : ¬ s24 b = -8388608)]
      rw [abs_of_neg hBlt, hB]
      have hcast : -((u24 b : Int) - 16777216) = ((16777216 - u24 b : Nat) : Int) := by omega
      rw [hcast]
      rw [show (8388607:Int) = ((8388607:Nat):Int) by norm_num, tdiv_natCast]
      rw [i32sat_natlt (by
        have := Nat.div_le_self 8388607 (16777216 - u24 b)
        omega)]
  · have hB := s24_of_pos hb hs
    have hBpos : ¬ s24 b < 0 := by omega
    rw [abs_of_nonneg (by omega), hB] at h2
    rw [div24]
    simp only [asm_divsat24]
    rw [if_neg (by omega : ¬ u24 b = 0)]
    rw [if_neg (fun hh => absurd hh.1 (by omega))]
    show (if (decide ((128 ≤ minRaw.b2) ≠ (128 ≤ b.b2))) = true
        then ofU24 (negWrap24 (udiv 24 (absSat24 (u24 b)) (absSat24 (u24 minRaw))))
        else ofU24 (udiv 24 (absSat24 (u24 b)) (absSat24 (u24 minRaw)))) = _
    have hA : (128:Nat) ≤ minRaw.b2 := by decide
    have hBb : ¬ 128 ≤ b.b2 := fun h => absurd ((sign_iff hb).mp h) (by omega)
    have htP : (128 ≤ minRaw.b2) ≠ (128 ≤ b.b2) := by
      intro heq
      rw [heq] at hA
      exact hBb hA
    rw [decide_eq_true htP, if_pos rfl]
    rw [show absSat24 (u24 minRaw) = 8388607 from rfl]
    rw [absSat24_of_pos hs]
    rw [udiv_eq 24 (u24 b) 8388607 (by norm_num) (by omega)
      (by norm_num; omega) (by norm_num)]
    rw [if_neg hBpos]
    rw [satAbsI, if_neg (by omega : ¬ s24 b = -8388608)]
    rw [abs_of_nonneg (by omega), hB]
    rw [show (8388607:Int) = ((8388607:Nat):Int) by norm_num, tdiv_natCast]
    rw [show (-1:Int) * ((8388607 / u24 b : Nat) : Int)
        = -(((8388607 / u24 b : Nat) : Int)) by ring]
    rw [i32sat_negnat (by
      have := Nat.div_le_self 8388607 (u24 b)
      omega)]

theorem div_min_uses_saturated_abs_witness :
    div24 minRaw (ofU24 2)
      = i32_to_i24raw_sat
          ((if s24 (ofU24 2) < 0 then 1 else -1)
            * (8388607:Int).tdiv (satAbsI (s24 (ofU24 2)))) :=
  div_min_uses_saturated_abs (ofU24 2) (by decide) (by decide)

/-- **C8** (amended): under the spec-claimed semantics the pre-shifted quotient
is exact whenever it fits strictly inside the representable range and neither
operand is a special value: for a != -8388608, b not in {0, -8388608} and
-8388608 < (to_i32(a) * 256).tdiv(to_i32(b)) < 8388608, shl8div(a, b) equals
the saturated wide quotient. (Outside that range the hardware loop only checks
the top byte of the 32-bit quotient, so quotients in [2^23, 2^24) wrap instead
of saturating, contradicting the claim.) -/
theorem shl8div_matches_wide_formula (a b : Int24Raw) (ha : a.Wf) (hb : b.Wf)
    (hb0 : s24 b ≠ 0) (hamin : s24 a ≠ -8388608) (hbmin : s24 b ≠ -8388608)
    (h1 : -8388608 < (s24 a * 256).tdiv (s24 b))
    (h2 : (s24 a * 256).tdiv (s24 b) < 8388608) :
    shl24_by8_div24 a b = i32_to_i24raw_sat ((s24 a * 256).tdiv (s24 b)) :=
  shl8div_correct a b ha hb hb0 hamin hbmin h1 h2

theorem shl8div_matches_wide_formula_witness :
    shl24_by8_div24 (ofU24 40) (ofU24 3)
      = i32_to_i24raw_sat ((s24 (ofU24 40) * 256).tdiv (s24 (ofU24 3))) :=
  shl8div_matches_wide_formula (ofU24 40) (ofU24 3) (by decide) (by decide)
    (by decide) (by decide) (by decide) (by decide) (by decide)

/-- **C2** (amended): the portable const path agrees with the low-level path
for add, sub, neg, abs and cmp on all representable operands; for mul whenever
the 32-bit product does not overflow; for div and shl8div away from the zero
divisor, minimum dividend and minimum divisor (and, for shl8div, when the wide
quotient fits in 24 bits); for shr for all counts below 32; and for shl for
counts below 32 whose exact shifted value stays representable. (Outside these
regions the const path panics or the two paths differ, as witnessed
separately.) -/
theorem const_paths_match_asm (a b : Int24Raw) (count : Nat) (ha : a.Wf) (hb : b.Wf) :
    constAdd a b = some (add24 a b) ∧
    constSub a b = some (sub24 a b) ∧
    (-2147483648 ≤ s24 a * s24 b → s24 a * s24 b < 2147483648 →
      constMul a b = some (asm_mulsat24 a b)) ∧
    constNeg a = some (asm_negsat24 a) ∧
    constAbs a = some (abs24 a) ∧
    constCmp a b = int24_cmp a b ∧
    (s24 b ≠ 0 → s24 a ≠ -8388608 → s24 b ≠ -8388608 →
      constDiv a b = some (div24 a b)) ∧
    (s24 b ≠ 0 → s24 a ≠ -8388608 → s24 b ≠ -8388608 →
      -8388608 < (s24 a * 256).tdiv (s24 b) → (s24 a * 256).tdiv (s24 b) < 8388608 →
      constShl8div a b = some (shl24_by8_div24 a b)) ∧
    (count < 32 → constShr a count = some (asm_shr24 a count)) ∧
    (count < 32 → -8388608 ≤ s24 a * 2 ^ count → s24 a * 2 ^ count < 8388608 →
      constShl a count = some (asm_shl24 a count)) := by
  have hra := s24_range ha
  have hrb := s24_range hb
  refine ⟨?_, ?_, ?_, ?_, ?_, ?_, ?_, ?_, ?_, ?_⟩
  · rw [constAdd, add24_correct a b ha hb, i32chk, if_pos (by omega)]
    rfl
  · rw [constSub, sub24_correct a b ha hb, i32chk, if_pos (by omega)]
    rfl
  · intro h1 h2
    rw [constMul, mulsat24_correct a b ha hb, i32chk, if_pos ⟨h1, h2⟩]
    rfl
  · rw [constNeg, negsat24_correct a ha, i32chk, if_pos (by omega)]
    rfl
  · by_cases hneg : s24 a < 0
    · rw [constAbs, if_pos hneg, constNeg, i32chk, if_pos (by omega)]
      rw [abs24, if_pos ((sign_iff_s24 ha).mpr hneg), negsat24_correct a ha]
      rfl
    · rw [constAbs, if_neg hneg, abs24, if_neg (fun h => hneg ((sign_iff_s24 ha).mp h))]
  · exact cmp_const_eq a b ha hb
  · intro hb0 hamin hbmin
    rw [constDiv, div24_correct a b ha hb hb0 hamin hbmin, i32div, if_neg hb0, i32chk]
    rw [if_pos (by
      have hq := Int.natAbs_tdiv (s24 a) (s24 b)
      have hd := Nat.div_le_self (s24 a).natAbs (s24 b).natAbs
      obtain ⟨m, hm⟩ : ∃ m, Nat.div (s24 a).natAbs (s24 b).natAbs = m := ⟨_, rfl⟩
      rw [hm] at hq
      have hd2 : m ≤ (s24 a).natAbs := by
        rw [← hm]
        exact Nat.div_le_self _ _
      omega)]
    rfl
  · intro hb0 hamin hbmin h1 h2
    rw [constShl8div, shl8div_correct a b ha hb hb0 hamin hbmin h1 h2, i32div,
      if_neg hb0, i32chk, if_pos (by omega)]
    rfl
  · intro hc
    rw [constShr, if_pos hc, shr24_correct a ha count]
  · intro hc h1 h2
    exact shl24_const_eq a ha count hc h1 h2

theorem const_paths_match_asm_witness :
    constDiv (ofU24 5) (ofU24 3) = some (div24 (ofU24 5) (ofU24 3)) := by
  have h := const_paths_match_asm (ofU24 5) (ofU24 3) 2 (by decide) (by decide)
  exact h.2.2.2.2.2.2.1 (by decide) (by decide) (by decide)
